import Mathlib

/-!
# Verification of the clox bytecode interpreter (crafting-interpreters, C)

This development gives a shallow embedding, in Lean 4, of the parts of the
clox implementation that the specification's claims speak about:

* the character scanner (`src/clox/scanner.c`),
* the Pratt parser / bytecode emitter for expressions (`src/clox/compiler.c`),
* the open-addressing hash table (`src/clox/table.c`),
* the string interner (`src/clox/object.c`),
* the virtual machine's call dispatch and global-variable opcodes
  (`src/clox/vm.c`),
* the mark-sweep garbage collector (`src/clox/memory.c`),
* the command-line driver (`src/clox/main.c`).

Every definition is translated from the C source, statement by statement,
preserving the source's control flow (including `switch` fall-throughs,
which are spelled out explicitly since Lean's `match` does not fall
through).  Loops are modelled with an explicit fuel parameter so that all
definitions compute; top-level wrappers supply fuel that provably suffices.
Machine integers are modelled as `Nat` (with explicit `% 2 ^ 32` where the
C source performs `uint32_t` arithmetic); C pointers to heap objects are
modelled as numeric identities; `NULL` becomes `Option.none`.
-/

namespace Clox

/-! ## Scanner (`src/clox/scanner.c`)

The C scanner works over a NUL-terminated `const char*`.  We model the
source text as a `List Char` together with a read that yields `'\x00'`
past the end, which is exactly the behaviour of the C code on a source
text that contains no interior NUL byte. -/

/-- Token types, from the `TokenType` enumeration in `scanner.h`. -/
inductive TokenType where
  | LEFT_PAREN | RIGHT_PAREN | LEFT_BRACE | RIGHT_BRACE
  | COMMA | DOT | MINUS | PLUS
  | SEMICOLON | SLASH | STAR
  | BANG | BANG_EQUAL
  | EQUAL | EQUAL_EQUAL
  | GREATER | GREATER_EQUAL
  | LESS | LESS_EQUAL
  | IDENTIFIER | STRING | NUMBER
  | AND | CLASS | ELSE | FALSE
  | FOR | FUN | IF | NIL | OR
  | PRINT | RETURN | SUPER | THIS
  | TRUE | VAR | WHILE
  | ERROR | EOF
  deriving DecidableEq, Repr

/-- A scanned token: the `Token` struct of `scanner.h`.  The C struct holds
a pointer/length pair into the source (or into a static message for error
tokens); we carry the designated character slice directly. -/
structure Token where
  type : TokenType
  lexeme : List Char
  line : Nat
  deriving DecidableEq, Repr

/-- Scanner state: the `Scanner` struct of `scanner.c`.  `start` and
`current` are the two cursors (indices into `source`), `line` the current
line number. -/
structure Scanner where
  source : List Char
  start : Nat
  current : Nat
  line : Nat
  deriving Repr

/-- Reading a character of a NUL-terminated C string: positions past the
end read as `'\x00'`. -/
def charAt (src : List Char) (i : Nat) : Char :=
  src.getD i '\x00'

/-- `initScanner` from `scanner.c`: both cursors at the start, line 1. -/
def initScanner (source : List Char) : Scanner :=
  { source := source, start := 0, current := 0, line := 1 }

/-- `isAtEnd` from `scanner.c`: `*scanner.current == '\0'`. -/
def Scanner.isAtEnd (s : Scanner) : Bool :=
  charAt s.source s.current = '\x00'

/-- `advance` from `scanner.c`: consume and return the current character. -/
def Scanner.advance (s : Scanner) : Char × Scanner :=
  (charAt s.source s.current, { s with current := s.current + 1 })

/-- The state effect of `advance` alone (used where the C code discards
the returned character). -/
def Scanner.bump (s : Scanner) : Scanner :=
  { s with current := s.current + 1 }

/-- `peek` from `scanner.c`. -/
def Scanner.peek (s : Scanner) : Char :=
  charAt s.source s.current

/-- `peekNext` from `scanner.c`. -/
def Scanner.peekNext (s : Scanner) : Char :=
  if s.isAtEnd then '\x00' else charAt s.source (s.current + 1)

/-- `match` from `scanner.c` (named `matchChar` here since `match` is a
Lean keyword): conditionally consume the expected character. -/
def Scanner.matchChar (s : Scanner) (expected : Char) : Bool × Scanner :=
  if s.isAtEnd then (false, s)
  else if charAt s.source s.current ≠ expected then (false, s)
  else (true, s.bump)

/-- `isDigit` from `scanner.c`. -/
def isDigit (c : Char) : Bool :=
  '0' ≤ c ∧ c ≤ '9'

/-- `isAlpha` from `scanner.c`, translated verbatim.  Note that the second
disjunct of the C source reads `(c >= 'A' && c <= 'z')` — the upper bound
is lowercase `'z'`, not `'Z'`. -/
def isAlpha (c : Char) : Bool :=
  ('a' ≤ c ∧ c ≤ 'z') ∨ ('A' ≤ c ∧ c ≤ 'z') ∨ c = '_'

/-- The inner loop of the `'/'` case of `skipWhitespace`:
`while (peek() != '\n' && !isAtEnd()) advance();`. -/
def skipCommentF : Nat → Scanner → Scanner
  | 0, s => s
  | fuel + 1, s =>
    if s.peek ≠ '\n' ∧ ¬ s.isAtEnd then skipCommentF fuel s.bump else s

/-- `skipWhitespace` from `scanner.c`.  The `'/'` case of the C `switch`
contains no `break` after the comment-consuming `while` loop, so when a
`//` comment has been consumed control falls through into the `default:`
case and the function returns — it does not continue the outer `for (;;)`
loop.  The translation reflects this by returning the result of
`skipCommentF` directly instead of recursing. -/
def skipWhitespaceF : Nat → Scanner → Scanner
  | 0, s => s
  | fuel + 1, s =>
    let c := s.peek
    if c = ' ' ∨ c = '\r' ∨ c = '\t' then
      skipWhitespaceF fuel s.bump
    else if c = '\n' then
      skipWhitespaceF fuel { s.bump with line := s.line + 1 }
    else if c = '/' then
      if s.peekNext = '/' then
        -- comment consumed, then fall through to `default: return;`
        skipCommentF fuel s
      else
        s
    else
      s

/-- `makeToken` from `scanner.c`: the lexeme is the slice
`[start, current)` of the source. -/
def Scanner.makeToken (s : Scanner) (type : TokenType) : Token :=
  { type := type
    lexeme := (s.source.drop s.start).take (s.current - s.start)
    line := s.line }

/-- `errorToken` from `scanner.c`: the token's text is the static message. -/
def Scanner.errorToken (s : Scanner) (message : List Char) : Token :=
  { type := .ERROR, lexeme := message, line := s.line }

/-- `checkKeyword` from `scanner.c`: the current lexeme must have exactly
length `start + length` and its characters from offset `start` must agree
with the first `length` characters of `rest` (the C code calls
`memcmp(scanner.start + start, rest, length)`). -/
def Scanner.checkKeyword (s : Scanner) (start length : Nat) (rest : List Char)
    (type : TokenType) : TokenType :=
  if s.current - s.start = start + length ∧
      ((s.source.drop (s.start + start)).take length = rest.take length) then
    type
  else
    .IDENTIFIER

/-- `identifierType` from `scanner.c`: the ad-hoc keyword trie.  Two
`case`s of the C `switch` lack a `break`/`return` on some paths and fall
through: `case 'f'` falls into `case 'i'` when the lexeme has length 1 or
its second character is none of `a`/`o`/`u`, and `case 't'` falls into
`case 'v'` analogously. -/
def Scanner.identifierType (s : Scanner) : TokenType :=
  let c0 := charAt s.source s.start
  if c0 = 'a' then s.checkKeyword 1 2 "nd".toList .AND
  else if c0 = 'c' then s.checkKeyword 1 4 "lass".toList .CLASS
  else if c0 = 'e' then s.checkKeyword 1 3 "lse".toList .ELSE
  else if c0 = 'f' then
    if s.current - s.start > 1 ∧ charAt s.source (s.start + 1) = 'a' then
      s.checkKeyword 2 3 "lse".toList .FALSE
    else if s.current - s.start > 1 ∧ charAt s.source (s.start + 1) = 'o' then
      s.checkKeyword 2 1 "r".toList .FOR
    else if s.current - s.start > 1 ∧ charAt s.source (s.start + 1) = 'u' then
      s.checkKeyword 2 1 "n".toList .FUN
    else
      -- fall through into `case 'i'`
      s.checkKeyword 1 1 "f".toList .IF
  else if c0 = 'i' then s.checkKeyword 1 1 "f".toList .IF
  else if c0 = 'n' then s.checkKeyword 1 2 "nil".toList .NIL
  else if c0 = 'o' then s.checkKeyword 1 1 "r".toList .OR
  else if c0 = 'p' then s.checkKeyword 1 4 "rint".toList .PRINT
  else if c0 = 'r' then s.checkKeyword 1 5 "eturn".toList .RETURN
  else if c0 = 's' then s.checkKeyword 1 4 "uper".toList .SUPER
  else if c0 = 't' then
    if s.current - s.start > 1 ∧ charAt s.source (s.start + 1) = 'h' then
      s.checkKeyword 2 2 "is".toList .THIS
    else if s.current - s.start > 1 ∧ charAt s.source (s.start + 1) = 'r' then
      s.checkKeyword 2 2 "ue".toList .TRUE
    else
      -- fall through into `case 'v'`
      s.checkKeyword 1 2 "ar".toList .VAR
  else if c0 = 'v' then s.checkKeyword 1 2 "ar".toList .VAR
  else if c0 = 'w' then s.checkKeyword 1 4 "hile".toList .WHILE
  else .IDENTIFIER

/-- The consumption loop of `identifier` from `scanner.c`:
`while (isAlpha(peek()) || isDigit(peek())) advance();`. -/
def identLoopF : Nat → Scanner → Scanner
  | 0, s => s
  | fuel + 1, s =>
    if isAlpha s.peek ∨ isDigit s.peek then identLoopF fuel s.bump else s

/-- `identifier` from `scanner.c`. -/
def Scanner.identifier (fuel : Nat) (s : Scanner) : Token :=
  let s := identLoopF fuel s
  s.makeToken s.identifierType

/-- The body loop of `string` from `scanner.c`. -/
def stringLoopF : Nat → Scanner → Scanner
  | 0, s => s
  | fuel + 1, s =>
    if s.peek ≠ '"' ∧ ¬ s.isAtEnd then
      if s.peek = '\n' then stringLoopF fuel { s.bump with line := s.line + 1 }
      else stringLoopF fuel s.bump
    else s

/-- `string` from `scanner.c`. -/
def Scanner.stringToken (fuel : Nat) (s : Scanner) : Token :=
  let s := stringLoopF fuel s
  if s.isAtEnd then s.errorToken ("Unterminated string.".toList)
  else (s.bump).makeToken .STRING

/-- The digit-consumption loop of `number` from `scanner.c`. -/
def digitLoopF : Nat → Scanner → Scanner
  | 0, s => s
  | fuel + 1, s =>
    if isDigit s.peek then digitLoopF fuel s.bump else s

/-- `number` from `scanner.c`. -/
def Scanner.numberToken (fuel : Nat) (s : Scanner) : Token :=
  let s := digitLoopF fuel s
  let s :=
    if s.peek = '.' ∧ isDigit s.peekNext then digitLoopF fuel s.bump
    else s
  s.makeToken .NUMBER

/-- `scanToken` from `scanner.c`, with fuel for the internal loops.
Returns the token together with the scanner state after the call. -/
def scanTokenF (fuel : Nat) (s : Scanner) : Token × Scanner :=
  let s := skipWhitespaceF fuel s
  let s := { s with start := s.current }
  if s.isAtEnd then (s.makeToken .EOF, s)
  else
    let (c, s) := s.advance
    if isAlpha c then
      let s1 := identLoopF fuel s
      (s1.makeToken s1.identifierType, s1)
    else if isDigit c then
      let s1 := digitLoopF fuel s
      let s1 :=
        if s1.peek = '.' ∧ isDigit s1.peekNext then digitLoopF fuel s1.bump
        else s1
      (s1.makeToken .NUMBER, s1)
    else if c = '(' then (s.makeToken .LEFT_PAREN, s)
    else if c = ')' then (s.makeToken .RIGHT_PAREN, s)
    else if c = '{' then (s.makeToken .LEFT_BRACE, s)
    else if c = '}' then (s.makeToken .RIGHT_BRACE, s)
    else if c = ';' then (s.makeToken .SEMICOLON, s)
    else if c = ',' then (s.makeToken .COMMA, s)
    else if c = '.' then (s.makeToken .DOT, s)
    else if c = '-' then (s.makeToken .MINUS, s)
    else if c = '+' then (s.makeToken .PLUS, s)
    else if c = '/' then (s.makeToken .SLASH, s)
    else if c = '*' then (s.makeToken .STAR, s)
    else if c = '!' then
      let (m, s) := s.matchChar '='
      (s.makeToken (if m then .BANG_EQUAL else .BANG), s)
    else if c = '=' then
      let (m, s) := s.matchChar '='
      (s.makeToken (if m then .EQUAL_EQUAL else .EQUAL), s)
    else if c = '<' then
      let (m, s) := s.matchChar '='
      (s.makeToken (if m then .LESS_EQUAL else .LESS), s)
    else if c = '>' then
      let (m, s) := s.matchChar '='
      (s.makeToken (if m then .GREATER_EQUAL else .GREATER), s)
    else if c = '"' then
      let s1 := stringLoopF fuel s
      if s1.isAtEnd then (s1.errorToken ("Unterminated string.".toList), s1)
      else ((s1.bump).makeToken .STRING, s1.bump)
    else
      (s.errorToken ("Unexpected character".toList), s)

/-- `scanToken` with fuel that always suffices for a terminating scan:
every loop iteration consumes at least one character of the remaining
source, and reads past the end yield `'\x00'` which stops every loop. -/
def scanToken (s : Scanner) : Token × Scanner :=
  scanTokenF (s.source.length + 1) s

/-- A source text of the shape the C1 claim describes: whitespace, a `//`
comment, the terminating newline, then a token. -/
def c1Source : List Char := " // c\nx".toList

/-- A source text whose first character is `'['`, for the C8 claim. -/
def c8Source : List Char := "[".toList

/-! ## Compiler: Pratt parser and bytecode emission (`src/clox/compiler.c`)

The compiler is embedded for the expression sublanguage, which is what the
claims about `rules`, `binary` and `parsePrecedence` concern.  Bytecode is
a flat byte stream (`List Nat`, one entry per `uint8_t` written by
`writeChunk`), with a parallel line sidecar and a constant pool, exactly
as in `chunk.h`. -/

/-- Precedence levels, the `Precedence` enumeration of `compiler.c`
(C enum — consecutive integers from 0). -/
def PREC_NONE : Nat := 0

def PREC_ASSIGNMENT : Nat := 1

def PREC_OR : Nat := 2

def PREC_AND : Nat := 3

def PREC_EQUALITY : Nat := 4

/-- `PREC_COMPARISON,  // < > <= >=` in the `Precedence` enumeration. -/
def PREC_COMPARISON : Nat := 5

def PREC_TERM : Nat := 6

def PREC_FACTOR : Nat := 7

def PREC_UNARY : Nat := 8

def PREC_CALL : Nat := 9

def PREC_PRIMARY : Nat := 10

/-- Opcode byte values, in the declaration order of the `OpCode`
enumeration in `chunk.h` (a C enum starting at 0). -/
def OP_CONSTANT : Nat := 0

def OP_NIL : Nat := 1

def OP_TRUE : Nat := 2

def OP_FALSE : Nat := 3

def OP_POP : Nat := 4

def OP_GET_LOCAL : Nat := 5

def OP_SET_LOCAL : Nat := 6

def OP_GET_GLOBAL : Nat := 7

def OP_SET_GLOBAL : Nat := 8

def OP_DEFINE_GLOBAL : Nat := 9

def OP_EQUAL : Nat := 10

def OP_GREATER : Nat := 11

def OP_LESS : Nat := 12

def OP_ADD : Nat := 13

def OP_SUBTRACT : Nat := 14

def OP_MULTIPLY : Nat := 15

def OP_DIVIDE : Nat := 16

def OP_NOT : Nat := 17

def OP_NEGATE : Nat := 18

def OP_PRINT : Nat := 19

def OP_JUMP : Nat := 20

def OP_JUMP_IF_FALSE : Nat := 21

def OP_LOOP : Nat := 22

def OP_RETURN : Nat := 23

/-- Modelled from the spec: the snapshot's `chunk.h` omits the
closure/call opcode declarations although `compiler.c` and `vm.c` use
them; spec §4.6 lists CALL, CLOSURE, CLOSE_UPVALUE and the upvalue
accessors.  Their byte values are taken to continue the enumeration; no
claim depends on the numeric values. -/
def OP_CALL : Nat := 24

def OP_GET_UPVALUE : Nat := 25

def OP_SET_UPVALUE : Nat := 26

def OP_CLOSURE : Nat := 27

def OP_CLOSE_UPVALUE : Nat := 28

/-- `UINT8_MAX`, `UINT16_MAX` and the compiler's `MAX_ARGUMENT_COUNT`. -/
def UINT8_MAX : Nat := 255

def UINT16_MAX : Nat := 65535

def MAX_ARGUMENT_COUNT : Nat := 255

/-- A value in a chunk's constant pool, as produced by the expression
compiler: `number()` stores the double obtained by `strtod` on the
lexeme; `string()`/`identifierConstant()` store an interned string.  The
numeric payload is carried as the designated lexeme: no claim verified
here depends on double arithmetic. -/
inductive CompValue where
  | number (lexeme : List Char)
  | str (data : List Char)
  deriving DecidableEq, Repr

/-- A `Local` of `compiler.c`; `depth = -1` is the declared-but-undefined
sentinel. -/
structure LocalVar where
  name : List Char
  depth : Int
  isCaptured : Bool
  deriving DecidableEq, Repr

/-- The label of a parse callback (`ParseFn`) appearing in the `rules`
table of `compiler.c`. -/
inductive ParseFnL where
  | grouping | call | unary | binary | variable | stringLit | number
  | andFn | orFn | literal
  deriving DecidableEq, Repr

/-- A `ParseRule`: one row of the parser table. -/
structure ParseRule where
  prefixFn : Option ParseFnL
  infixFn : Option ParseFnL
  precedence : Nat
  deriving DecidableEq, Repr

/-- The `rules` parser table of `compiler.c`, row for row. -/
def getRule : TokenType → ParseRule
  | .LEFT_PAREN    => ⟨some .grouping, some .call,   PREC_CALL⟩
  | .RIGHT_PAREN   => ⟨none,           none,         PREC_NONE⟩
  | .LEFT_BRACE    => ⟨none,           none,         PREC_NONE⟩
  | .RIGHT_BRACE   => ⟨none,           none,         PREC_NONE⟩
  | .COMMA         => ⟨none,           none,         PREC_NONE⟩
  | .DOT           => ⟨none,           none,         PREC_NONE⟩
  | .MINUS         => ⟨some .unary,    some .binary, PREC_TERM⟩
  | .PLUS          => ⟨none,           some .binary, PREC_TERM⟩
  | .SEMICOLON     => ⟨none,           none,         PREC_NONE⟩
  | .SLASH         => ⟨none,           some .binary, PREC_FACTOR⟩
  | .STAR          => ⟨none,           some .binary, PREC_FACTOR⟩
  | .BANG          => ⟨some .unary,    none,         PREC_NONE⟩
  | .BANG_EQUAL    => ⟨none,           some .binary, PREC_EQUALITY⟩
  | .EQUAL         => ⟨none,           none,         PREC_NONE⟩
  | .EQUAL_EQUAL   => ⟨none,           some .binary, PREC_EQUALITY⟩
  | .GREATER       => ⟨none,           some .binary, PREC_EQUALITY⟩
  | .GREATER_EQUAL => ⟨none,           some .binary, PREC_EQUALITY⟩
  | .LESS          => ⟨none,           some .binary, PREC_EQUALITY⟩
  | .LESS_EQUAL    => ⟨none,           some .binary, PREC_EQUALITY⟩
  | .IDENTIFIER    => ⟨some .variable, none,         PREC_NONE⟩
  | .STRING        => ⟨some .stringLit, none,        PREC_NONE⟩
  | .NUMBER        => ⟨some .number,   none,         PREC_NONE⟩
  | .AND           => ⟨none,           some .andFn,  PREC_NONE⟩
  | .CLASS         => ⟨none,           none,         PREC_NONE⟩
  | .ELSE          => ⟨none,           none,         PREC_NONE⟩
  | .FALSE         => ⟨some .literal,  none,         PREC_NONE⟩
  | .FOR           => ⟨none,           none,         PREC_NONE⟩
  | .FUN           => ⟨none,           none,         PREC_NONE⟩
  | .IF            => ⟨none,           none,         PREC_NONE⟩
  | .NIL           => ⟨some .literal,  none,         PREC_NONE⟩
  | .OR            => ⟨none,           some .orFn,   PREC_NONE⟩
  | .PRINT         => ⟨none,           none,         PREC_NONE⟩
  | .RETURN        => ⟨none,           none,         PREC_NONE⟩
  | .SUPER         => ⟨none,           none,         PREC_NONE⟩
  | .THIS          => ⟨none,           none,         PREC_NONE⟩
  | .TRUE          => ⟨some .literal,  none,         PREC_NONE⟩
  | .VAR           => ⟨none,           none,         PREC_NONE⟩
  | .WHILE         => ⟨none,           none,         PREC_NONE⟩
  | .ERROR         => ⟨none,           none,         PREC_NONE⟩
  | .EOF           => ⟨none,           none,         PREC_NONE⟩

/-- Parser + compiler + chunk state: the fields of the global `parser`,
the script-level `Compiler` (whose `enclosing` is `NULL`), and the chunk
being written.  `tokens` is the remaining token stream (the C scanner is
pulled lazily; an exhausted stream keeps yielding EOF tokens). -/
structure CompSt where
  tokens : List Token
  previous : Token
  current : Token
  hadError : Bool
  panicMode : Bool
  code : List Nat
  lines : List Nat
  constants : List CompValue
  locals : List LocalVar
  scopeDepth : Nat
  deriving Repr

/-- The token the scanner produces forever once the input is exhausted. -/
def eofTok : Token := { type := .EOF, lexeme := [], line := 0 }

/-- Pull the next token from the stream. -/
def nextTok : List Token → Token × List Token
  | [] => (eofTok, [])
  | t :: rest => (t, rest)

/-- `errorAt` from `compiler.c`: the only state effect (the message goes
to stderr) is entering panic mode and recording that an error occurred;
during panic the report is suppressed entirely. -/
def errorP (st : CompSt) : CompSt :=
  if st.panicMode then st
  else { st with panicMode := true, hadError := true }

/-- The token-fetch loop of `advance`:
`for (;;) { parser.current = scanToken(); if (current.type != TOKEN_ERROR)
break; errorAtCurrent(...); }`. -/
def advLoop : Nat → CompSt → CompSt
  | 0, st => st
  | fuel + 1, st =>
    let (t, rest) := nextTok st.tokens
    let st := { st with current := t, tokens := rest }
    if t.type ≠ TokenType.ERROR then st else advLoop fuel (errorP st)

/-- `advance` from `compiler.c`. -/
def advanceP (st : CompSt) : CompSt :=
  advLoop (st.tokens.length + 1) { st with previous := st.current }

/-- `check` from `compiler.c`. -/
def check (st : CompSt) (type : TokenType) : Bool :=
  st.current.type = type

/-- `match` from `compiler.c` (named `matchTok`; `match` is a Lean
keyword). -/
def matchTok (st : CompSt) (type : TokenType) : Bool × CompSt :=
  if check st type then (true, advanceP st) else (false, st)

/-- `consume` from `compiler.c` (the error message only goes to stderr). -/
def consume (st : CompSt) (type : TokenType) : CompSt :=
  if st.current.type = type then advanceP st else errorP st

/-- `emitByte`/`writeChunk`: append the byte and the previous token's line. -/
def emitByteSt (st : CompSt) (byte : Nat) : CompSt :=
  { st with code := st.code ++ [byte], lines := st.lines ++ [st.previous.line] }

/-- `emitBytes` from `compiler.c`. -/
def emitBytesSt (st : CompSt) (b0 b1 : Nat) : CompSt :=
  emitByteSt (emitByteSt st b0) b1

/-- `makeConstant` from `compiler.c`: `addConstant` appends the value and
returns its index; an index above `UINT8_MAX` is a compile error and 0 is
returned. -/
def makeConstant (st : CompSt) (v : CompValue) : Nat × CompSt :=
  let st := { st with constants := st.constants ++ [v] }
  let constant := st.constants.length - 1
  if constant > UINT8_MAX then (0, errorP st) else (constant, st)

/-- `emitConstant` from `compiler.c`. -/
def emitConstant (st : CompSt) (v : CompValue) : CompSt :=
  let (idx, st) := makeConstant st v
  emitBytesSt st OP_CONSTANT idx

/-- `emitJump` from `compiler.c`: opcode plus two `0xFF` placeholder
bytes; returns the offset of the first placeholder. -/
def emitJumpSt (st : CompSt) (opcode : Nat) : Nat × CompSt :=
  let st := emitByteSt st opcode
  let st := emitByteSt st 0xFF
  let st := emitByteSt st 0xFF
  (st.code.length - 2, st)

/-- `patchJump` from `compiler.c`: compute the forward distance, report an
error if it exceeds `UINT16_MAX`, and patch the two placeholder bytes
(big-endian) unconditionally. -/
def patchJumpSt (st : CompSt) (offset : Nat) : CompSt :=
  let jump := st.code.length - offset - 2
  let st := if jump > UINT16_MAX then errorP st else st
  { st with code := (st.code.set offset ((jump >>> 8) % 256)).set (offset + 1) (jump % 256) }

/-- `identifierEquals` from `compiler.c`: length check plus `memcmp`,
i.e. equality of the lexemes. -/
def identifierEquals (a b : List Char) : Bool :=
  a = b

/-- The scan of `resolveLocal`: indices from `localCount - 1` down to 0;
finding a match at the sentinel depth `-1` reports
"Can't read local variable in its own initializer." (state effect:
`errorP`) and still returns the index. -/
def resolveLocalGo (st : CompSt) : List (Nat × LocalVar) → Int × CompSt
  | [] => (-1, st)
  | (i, l) :: rest =>
    if identifierEquals st.previous.lexeme l.name then
      if l.depth = -1 then ((i : Int), errorP st) else ((i : Int), st)
    else resolveLocalGo st rest

/-- `resolveLocal` from `compiler.c`, for the name held in
`parser.previous` (how `variable()` invokes it). -/
def resolveLocalSt (st : CompSt) : Int × CompSt :=
  resolveLocalGo st st.locals.enum.reverse

/-- `resolveUpvalue` from `compiler.c` at the script-level compiler:
`if (compiler->enclosing == NULL) return -1;` — the script compiler has no
enclosing compiler, so the result is always `-1`. -/
def resolveUpvalueSt (_st : CompSt) : Int :=
  -1

/-- `identifierConstant` from `compiler.c`: intern the identifier's
lexeme as a string constant. -/
def identifierConstant (st : CompSt) : Nat × CompSt :=
  makeConstant st (.str st.previous.lexeme)

/-- The `binary()` operator `switch` of `compiler.c`.  Lean's `match`
cannot fall through, so the two missing `break`s of the C source are
spelled out: `case TOKEN_GREATER_EQUAL: emitBytes(OP_LESS, OP_NOT);` falls
through into `case TOKEN_LESS: emitByte(OP_LESS); break;`, and
`case TOKEN_LESS_EQUAL: emitBytes(OP_GREATER, OP_NOT);` falls through into
`case TOKEN_PLUS: emitByte(OP_ADD); break;`. -/
def binaryEmit (op : TokenType) (st : CompSt) : CompSt :=
  match op with
  | .BANG_EQUAL => emitBytesSt st OP_EQUAL OP_NOT
  | .EQUAL_EQUAL => emitByteSt st OP_EQUAL
  | .GREATER => emitByteSt st OP_GREATER
  | .GREATER_EQUAL => emitByteSt (emitBytesSt st OP_LESS OP_NOT) OP_LESS
  | .LESS => emitByteSt st OP_LESS
  | .LESS_EQUAL => emitByteSt (emitBytesSt st OP_GREATER OP_NOT) OP_ADD
  | .PLUS => emitByteSt st OP_ADD
  | .MINUS => emitByteSt st OP_SUBTRACT
  | .STAR => emitByteSt st OP_MULTIPLY
  | .SLASH => emitByteSt st OP_DIVIDE
  | _ => st

/-- `literal()` from `compiler.c`. -/
def literalEmit (st : CompSt) : CompSt :=
  match st.previous.type with
  | .FALSE => emitByteSt st OP_FALSE
  | .TRUE => emitByteSt st OP_TRUE
  | .NIL => emitByteSt st OP_NIL
  | _ => st

/-- `number()` from `compiler.c`: the constant is the double parsed from
the previous token's lexeme (carried as the lexeme, see `CompValue`). -/
def numberEmit (st : CompSt) : CompSt :=
  emitConstant st (.number st.previous.lexeme)

/-- `string()` from `compiler.c`: the lexeme stripped of its surrounding
quotes. -/
def stringEmit (st : CompSt) : CompSt :=
  emitConstant st (.str ((st.previous.lexeme.drop 1).take (st.previous.lexeme.length - 2)))

/-- The mutually recursive part of the Pratt parser, defused into a single
fuel-indexed function.  The constructors select which C function runs:
`prec p` is `parsePrecedence(p)`, `run fn canAssign` invokes a parse
callback, `iloop` is the infix `while` loop inside `parsePrecedence`, and
`argsLoop` the `do … while (match(TOKEN_COMMA))` of `argumentList`
(the returned `Nat` is `argumentList`'s count; 0 elsewhere). -/
inductive PCall where
  | prec (p : Nat)
  | run (fn : ParseFnL) (canAssign : Bool)
  | iloop (p : Nat) (canAssign : Bool)
  | argsLoop (count : Nat)

/-- The Pratt parser engine: `parsePrecedence`, the parse callbacks of the
`rules` table, and `argumentList`, from `compiler.c`. -/
def pratt : Nat → PCall → CompSt → CompSt × Nat
  | 0, _, st => (st, 0)
  | fuel + 1, c, st =>
    match c with
    | .prec p =>
      let st := advanceP st
      match (getRule st.previous.type).prefixFn with
      | none => (errorP st, 0)  -- error("Expected expression.")
      | some pfn =>
        let canAssign := decide (p ≤ PREC_ASSIGNMENT)
        let (st, _) := pratt fuel (.run pfn canAssign) st
        let (st, _) := pratt fuel (.iloop p canAssign) st
        if canAssign then
          let (m, st) := matchTok st .EQUAL
          if m then (errorP st, 0)  -- error("Invalid assignment target.")
          else (st, 0)
        else (st, 0)
    | .iloop p canAssign =>
      if p ≤ (getRule st.current.type).precedence then
        let st := advanceP st
        match (getRule st.previous.type).infixFn with
        | none => (st, 0)  -- the C would call a NULL ParseFn; unreachable
        | some ifn =>
          let (st, _) := pratt fuel (.run ifn canAssign) st
          pratt fuel (.iloop p canAssign) st
      else (st, 0)
    | .argsLoop count =>
      let (st, _) := pratt fuel (.prec PREC_ASSIGNMENT) st  -- expression()
      let st := if count = MAX_ARGUMENT_COUNT then errorP st else st
      let count := count + 1
      let (m, st) := matchTok st .COMMA
      if m then pratt fuel (.argsLoop count) st else (st, count)
    | .run fn canAssign =>
      match fn with
      | .number => (numberEmit st, 0)
      | .stringLit => (stringEmit st, 0)
      | .literal => (literalEmit st, 0)
      | .grouping =>
        let (st, _) := pratt fuel (.prec PREC_ASSIGNMENT) st  -- expression()
        (consume st .RIGHT_PAREN, 0)
      | .unary =>
        let operatorType := st.previous.type
        let (st, _) := pratt fuel (.prec PREC_UNARY) st
        match operatorType with
        | .BANG => (emitByteSt st OP_NOT, 0)
        | .MINUS => (emitByteSt st OP_NEGATE, 0)
        | _ => (st, 0)
      | .binary =>
        let operatorType := st.previous.type
        let rule := getRule operatorType
        let (st, _) := pratt fuel (.prec (rule.precedence + 1)) st
        (binaryEmit operatorType st, 0)
      | .andFn =>
        let (endJump, st) := emitJumpSt st OP_JUMP_IF_FALSE
        let st := emitByteSt st OP_POP
        let (st, _) := pratt fuel (.prec PREC_AND) st
        (patchJumpSt st endJump, 0)
      | .orFn =>
        let (elseJump, st) := emitJumpSt st OP_JUMP_IF_FALSE
        let (endJump, st) := emitJumpSt st OP_JUMP
        let st := patchJumpSt st elseJump
        let st := emitByteSt st OP_POP
        let (st, _) := pratt fuel (.prec PREC_OR) st
        (patchJumpSt st endJump, 0)
      | .call =>
        let (st, argCount) :=
          if check st .RIGHT_PAREN then (st, 0)
          else pratt fuel (.argsLoop 0) st
        let st := consume st .RIGHT_PAREN
        (emitBytesSt st OP_CALL argCount, 0)
      | .variable =>
        -- namedVariable(parser.previous, canAssign)
        let (arg, st) := resolveLocalSt st
        let (getOp, setOp, arg, st) :=
          if arg ≠ -1 then (OP_GET_LOCAL, OP_SET_LOCAL, arg.toNat, st)
          else if resolveUpvalueSt st ≠ -1 then
            (OP_GET_UPVALUE, OP_SET_UPVALUE, (resolveUpvalueSt st).toNat, st)
          else
            let (idx, st) := identifierConstant st
            (OP_GET_GLOBAL, OP_SET_GLOBAL, idx, st)
        let (m, st) := if canAssign then matchTok st .EQUAL else (false, st)
        if m then
          let (st, _) := pratt fuel (.prec PREC_ASSIGNMENT) st  -- expression()
          (emitBytesSt st setOp (arg % 256), 0)
        else
          (emitBytesSt st getOp (arg % 256), 0)

/-- The compiler state at the start of `compile()` for the script-level
compiler: `initCompiler` claims locals slot 0 with an empty name at depth
0; no code, constants or errors yet. -/
def initCompSt (tokens : List Token) : CompSt :=
  { tokens := tokens
    previous := eofTok
    current := eofTok
    hadError := false
    panicMode := false
    code := []
    lines := []
    constants := []
    locals := [{ name := [], depth := 0, isCaptured := false }]
    scopeDepth := 0 }

/-- Compiling a single expression: `compile()`'s priming `advance()`
followed by `expression()`, i.e. `parsePrecedence(PREC_ASSIGNMENT)`. -/
def compileExpression (tokens : List Token) : CompSt :=
  let st := advanceP (initCompSt tokens)
  (pratt ((tokens.length + 1) * 8) (.prec PREC_ASSIGNMENT) st).1

/-- Shorthand for a NUMBER token. -/
def numTok (lexeme : List Char) : Token :=
  { type := .NUMBER, lexeme := lexeme, line := 1 }

/-- Shorthand for an operator token. -/
def opTok (type : TokenType) (lexeme : List Char) : Token :=
  { type := type, lexeme := lexeme, line := 1 }

/-- The token stream of the source `1 == 2 < 3` (claim C2's shape
`a == b < c`). -/
def c2Tokens : List Token :=
  [numTok ['1'], opTok .EQUAL_EQUAL ['=', '='], numTok ['2'],
   opTok .LESS ['<'], numTok ['3']]

/-! ## Values and string objects (`value.h`, `object.h`)

Heap pointers are modelled as numeric identities (`id`); `NULL` becomes
`Option.none`.  The payload of a Lox number is an IEEE-754 double in C; no
claim verified here performs double arithmetic, so the payload is carried
as an opaque `Nat` tag sufficient to distinguish test values. -/

/-- A runtime `Value` (the tagged-union representation of `value.h`):
`nil`, boolean, number, or a reference to a heap object. -/
inductive Value where
  | nil
  | bool (b : Bool)
  | number (payload : Nat)
  | object (id : Nat)
  deriving DecidableEq, Repr

/-- A `StringObject` (`object.h`): identity (the C pointer), character
data, and the cached hash.  The C `length` field is always set to the
length of the data at every allocation site; it is exposed as
`StrObj.length`. -/
structure StrObj where
  id : Nat
  data : List Char
  hash : Nat
  deriving DecidableEq, Repr

/-- The `length` field of a `StringObject`. -/
def StrObj.length (s : StrObj) : Nat :=
  s.data.length

/-- `hashString` from `object.c`: FNV-1a over the bytes, in `uint32_t`
arithmetic. -/
def hashString (data : List Char) : Nat :=
  data.foldl (fun h c => ((h ^^^ c.toNat % 256) * 16777619) % 4294967296) 2166136261

/-! ## Hash table (`src/clox/table.c`) -/

/-- An `Entry` of `table.h`: nullable key plus value.  A slot is *empty*
when `key = none ∧ value = nil` and a *tombstone* when `key = none` but
the value is `true` (what `delTable` stores). -/
structure Entry where
  key : Option StrObj
  value : Value
  deriving DecidableEq, Repr

/-- The `Table` of `table.h`.  `entries` has length `capacity`; `count`
counts occupied slots *plus* tombstones (see `putTable`). -/
structure Table where
  count : Nat
  capacity : Nat
  entries : List Entry
  deriving DecidableEq, Repr

/-- Read `entries[i]` (callers only use indices below `capacity`). -/
def entryAt (entries : List Entry) (i : Nat) : Entry :=
  entries.getD i ⟨none, .nil⟩

/-- The loop of `findEntry` from `table.c`, fuelled.  The translation is
statement for statement; in particular, in the branch where the slot's
key is `NULL` but the value is not `nil` (a tombstone) the C records the
tombstone and then — with no `continue`/`break` — immediately executes the
unconditional `return entry;` that follows the `if`/`else`, so probing
never proceeds past a tombstone.  `none` models the C loop running
forever (never the case in the states the theorems consider). -/
def findEntryGo (entries : List Entry) (capacity : Nat) (key : StrObj) :
    Nat → Nat → Option Nat → Option Nat
  | 0, _, _ => none
  | fuel + 1, index, tombstone =>
    let entry := entryAt entries index
    match entry.key with
    | none =>
      if entry.value = Value.nil then
        -- Empty entry: `return (tombstone != NULL) ? tombstone : entry;`
        some (tombstone.getD index)
      else
        -- Tombstone: `if (tombstone == NULL) tombstone = entry;` and then
        -- the unconditional `return entry;`
        some index
    | some k =>
      if k.id = key.id then some index
      else findEntryGo entries capacity key fuel ((index + 1) % capacity) tombstone

/-- `findEntry` from `table.c`: probe linearly from `hash % capacity`.
Fuel `capacity` covers every slot once (linear probing visits each slot
exactly once per `capacity` steps). -/
def findEntry (entries : List Entry) (capacity : Nat) (key : StrObj) : Option Nat :=
  findEntryGo entries capacity key capacity (key.hash % capacity) none

/-- `TABLE_MAX_LOAD`-based growth test of `putTable`:
`table->count + 1 > table->capacity * 0.75`, which over the exactly
representable doubles involved is `4 * (count + 1) > 3 * capacity`. -/
def needsGrow (table : Table) : Bool :=
  4 * (table.count + 1) > 3 * table.capacity

/-- `GROW_CAPACITY` from `memory.h`. -/
def growCapacity (capacity : Nat) : Nat :=
  if capacity < 8 then 8 else capacity * 2

/-- One step of the copy loop of `adjustCapacity`: skip `NULL` keys,
otherwise re-insert at the slot `findEntry` designates in the new array
and bump the recomputed count. -/
def adjustStep (capacity : Nat) (acc : List Entry × Nat) (entry : Entry) :
    List Entry × Nat :=
  match entry.key with
  | none => acc
  | some k =>
    match findEntry acc.1 capacity k with
    | none => acc
    | some dst => ((acc.1.set dst ⟨some k, entry.value⟩), acc.2 + 1)

/-- `adjustCapacity` from `table.c`: allocate a fresh empty array, copy
every occupied entry across (dropping tombstones), recompute `count`. -/
def adjustCapacity (table : Table) (capacity : Nat) : Table :=
  let init : List Entry × Nat := (List.replicate capacity ⟨none, .nil⟩, 0)
  let res := table.entries.foldl (adjustStep capacity) init
  { count := res.2, capacity := capacity, entries := res.1 }

/-- The growth step at the head of `putTable`:
`if (count + 1 > capacity * TABLE_MAX_LOAD) adjustCapacity(...)`. -/
def putGrown (table : Table) : Table :=
  if needsGrow table then adjustCapacity table (growCapacity table.capacity)
  else table

/-- The remainder of `putTable` after the growth check: find the slot,
store the pair, and bump `count` only if the slot was a previously empty
(non-tombstone) slot.  Returns `isNewKey`. -/
def putInsert (table : Table) (key : StrObj) (value : Value) : Bool × Table :=
  match findEntry table.entries table.capacity key with
  | none => (false, table)
  | some idx =>
    let entry := entryAt table.entries idx
    let isNewKey := entry.key = none
    let count :=
      if isNewKey ∧ entry.value = Value.nil then table.count + 1 else table.count
    (decide isNewKey,
     { table with
        entries := table.entries.set idx ⟨some key, value⟩
        count := count })

/-- `putTable` from `table.c`: the growth check followed by the insert. -/
def putTable (table : Table) (key : StrObj) (value : Value) : Bool × Table :=
  putInsert (putGrown table) key value

/-- `getTable` from `table.c` (`bool` + out-parameter becomes `Option`). -/
def getTable (table : Table) (key : StrObj) : Option Value :=
  if table.count = 0 then none
  else
    match findEntry table.entries table.capacity key with
    | none => none
    | some idx =>
      match (entryAt table.entries idx).key with
      | none => none
      | some _ => some (entryAt table.entries idx).value

/-- `delTable` from `table.c`: replace the found entry with a tombstone
(`key = NULL`, `value = true`). -/
def delTable (table : Table) (key : StrObj) : Bool × Table :=
  if table.count = 0 then (false, table)
  else
    match findEntry table.entries table.capacity key with
    | none => (false, table)
    | some idx =>
      match (entryAt table.entries idx).key with
      | none => (false, table)
      | some _ =>
        (true, { table with
                  entries := table.entries.set idx ⟨none, Value.bool true⟩ })

/-- `initTable` from `table.c`. -/
def initTable : Table :=
  { count := 0, capacity := 0, entries := [] }

/-- The loop of `findStringTable`, fuelled.  Unlike `findEntry` this loop
is written correctly in the C source: it *continues* past tombstones and
stops only at a genuinely empty slot or a content match
(`length`/`hash` equal and `memcmp` of the data equal). -/
def findStringGo (entries : List Entry) (capacity : Nat) (data : List Char)
    (hash : Nat) : Nat → Nat → Option StrObj
  | 0, _ => none
  | fuel + 1, index =>
    let entry := entryAt entries index
    match entry.key with
    | none =>
      if entry.value = Value.nil then none
      else findStringGo entries capacity data hash fuel ((index + 1) % capacity)
    | some k =>
      if k.data.length = data.length ∧ k.hash = hash ∧ k.data = data then some k
      else findStringGo entries capacity data hash fuel ((index + 1) % capacity)

/-- `findStringTable` from `table.c`. -/
def findStringTable (table : Table) (data : List Char) (hash : Nat) : Option StrObj :=
  if table.count = 0 then none
  else findStringGo table.entries table.capacity data hash table.capacity
    (hash % table.capacity)

/-! ## String interner (`src/clox/object.c`)

`vm.strings` together with the allocator's supply of fresh pointer
identities. -/

/-- The interner state: the `vm.strings` table and the next fresh object
identity (the model of the allocator's pointer supply). -/
structure Interner where
  strings : Table
  nextId : Nat
  deriving Repr

/-- `allocateString` from `object.c`: build the string object and intern
it (`putTable(&vm.strings, string, NIL_VAL)`; the push/pop pair around
the call only protects the object from the GC and has no table effect). -/
def allocateString (st : Interner) (data : List Char) (hash : Nat) :
    StrObj × Interner :=
  let s : StrObj := { id := st.nextId, data := data, hash := hash }
  let (_, strings) := putTable st.strings s Value.nil
  (s, { strings := strings, nextId := st.nextId + 1 })

/-- `copyString` from `object.c`: hash, look the content up in the
interner, return the existing object if present, else copy the bytes and
allocate (the heap copy itself has no model effect). -/
def copyString (st : Interner) (data : List Char) : StrObj × Interner :=
  let hash := hashString data
  match findStringTable st.strings data hash with
  | some interned => (interned, st)
  | none => allocateString st data hash

/-- `takeString` from `object.c`: identical to `copyString` except that
on a hit the caller-supplied buffer is freed (no model effect) and on a
miss the buffer is adopted rather than copied. -/
def takeString (st : Interner) (data : List Char) : StrObj × Interner :=
  let hash := hashString data
  match findStringTable st.strings data hash with
  | some interned => (interned, st)
  | none => allocateString st data hash

/-- The interner at VM start (`initVM` calls `initTable(&vm.strings)`). -/
def initInterner : Interner :=
  { strings := initTable, nextId := 0 }

/-! ## Concrete tables for claim C4 -/

/-- Key `k1` of the C4 scenario: hash 0. -/
def c4k1 : StrObj := { id := 1, data := ['a'], hash := 0 }

/-- Key `k2` of the C4 scenario: hash 8, colliding with `k1` modulo the
initial capacity 8. -/
def c4k2 : StrObj := { id := 2, data := ['b'], hash := 8 }

/-- The C4 table after `put k1; put k2; delete k1`. -/
def c4Table : Table :=
  let (_, t1) := putTable initTable c4k1 (Value.number 1)
  let (_, t2) := putTable t1 c4k2 (Value.number 2)
  (delTable t2 c4k1).2

/-! ## Verification layer: probe arithmetic and table invariants

These definitions are not translations of C code; they are the predicates
in which the hash-table theorems are stated. -/

/-- The `j`-th slot of the linear probe sequence that starts at `start`. -/
def probe (cap start j : Nat) : Nat :=
  (start + j) % cap

/-- The probe offset at which slot `i` appears in the sequence that
starts at `start` (inverse of `probe`). -/
def offsetOf (cap start i : Nat) : Nat :=
  (i + cap - start % cap) % cap

/-- The key stored at slot `i` (if any). -/
def keyAt (t : Table) (i : Nat) : Option StrObj :=
  (entryAt t.entries i).key

/-- A slot that is genuinely empty (never used, or in a fresh array):
`key == NULL && IS_NIL(value)`. -/
def slotEmpty (e : Entry) : Prop :=
  e.key = none ∧ e.value = Value.nil

/-- `findEntry` stops at slot `i`: the slot's key is `NULL` (empty *or*
tombstone — the unguarded `return entry;`) or its key is the probed
pointer. -/
def isStopE (entries : List Entry) (key : StrObj) (i : Nat) : Bool :=
  match (entryAt entries i).key with
  | none => true
  | some k => k.id = key.id

/-- `findStringTable` stops at slot `i`: genuinely empty, or a full
content match (length, hash and bytes). -/
def isStopS (entries : List Entry) (data : List Char) (hash : Nat) (i : Nat) : Bool :=
  match (entryAt entries i).key with
  | none => decide ((entryAt entries i).value = Value.nil)
  | some k => decide (k.data.length = data.length ∧ k.hash = hash ∧ k.data = data)

/-- Number of occupied slots. -/
def occCount (es : List Entry) : Nat :=
  es.countP (fun e => e.key.isSome)

/-- Number of tombstones. -/
def tombCount (es : List Entry) : Nat :=
  es.countP (fun e => e.key.isNone && !(e.value = Value.nil : Bool))

/-- Number of genuinely empty slots. -/
def empCount (es : List Entry) : Nat :=
  es.countP (fun e => e.key.isNone && (e.value = Value.nil : Bool))

/-- Structural well-formedness of a table: the entry array realises the
capacity; `count` counts occupied slots plus tombstones (the discipline
`putTable`/`delTable`/`adjustCapacity` maintain); the load factor bound
`4 * count ≤ 3 * capacity` holds between operations. -/
def TableShape (t : Table) : Prop :=
  t.entries.length = t.capacity ∧
  t.count = occCount t.entries + tombCount t.entries ∧
  4 * t.count ≤ 3 * t.capacity

/-- The probe-chain invariant (on a raw entry array): every stored key is
reachable from its hash bucket without crossing a genuinely empty slot.
(`findStringTable` skips tombstones, so tombstones on the way are
harmless to it.) -/
def ChainInvL (cap : Nat) (es : List Entry) : Prop :=
  ∀ i k, i < cap → (entryAt es i).key = some k →
    ∀ j, j < offsetOf cap (k.hash % cap) i →
      ¬ slotEmpty (entryAt es (probe cap (k.hash % cap) j))

/-- `ChainInvL` for a table. -/
def ChainInv (t : Table) : Prop :=
  ChainInvL t.capacity t.entries

/-- The strict probe-chain invariant: every stored key is reachable from
its hash bucket without crossing *any* `NULL`-key slot (no tombstone may
shadow a key).  This is the discipline the VM's globals table maintains
(its only deletions immediately follow the corresponding insertion). -/
def StrictChainInv (t : Table) : Prop :=
  ∀ i k, i < t.capacity → keyAt t i = some k →
    ∀ j, j < offsetOf t.capacity (k.hash % t.capacity) i →
      (entryAt t.entries (probe t.capacity (k.hash % t.capacity) j)).key.isSome

/-- No two distinct slots hold keys with the same identity (distinct C
pointers are distinct objects, and no object is stored twice). -/
def UniqueIdL (cap : Nat) (es : List Entry) : Prop :=
  ∀ i j ki kj, i < cap → j < cap →
    (entryAt es i).key = some ki → (entryAt es j).key = some kj →
    i ≠ j → ki.id ≠ kj.id

/-- `UniqueIdL` for a table. -/
def UniqueId (t : Table) : Prop :=
  UniqueIdL t.capacity t.entries

/-- Every stored key's cached hash is the FNV-1a hash of its data. -/
def HashLaw (t : Table) : Prop :=
  ∀ i k, i < t.capacity → keyAt t i = some k → k.hash = hashString k.data

/-- There is no entry whose key has the given identity (raw array). -/
def NoIdL (cap : Nat) (es : List Entry) (id : Nat) : Prop :=
  ∀ i k, i < cap → (entryAt es i).key = some k → k.id ≠ id

/-- `NoIdL` for a table. -/
def NoId (t : Table) (id : Nat) : Prop :=
  NoIdL t.capacity t.entries id

/-- The entry array holds the pair `(k, v)` at some slot below `cap`. -/
def HasPairL (cap : Nat) (es : List Entry) (k : StrObj) (v : Value) : Prop :=
  ∃ i, i < cap ∧ entryAt es i = ⟨some k, v⟩

/-- `HasPairL` for a table. -/
def HasPair (t : Table) (k : StrObj) (v : Value) : Prop :=
  HasPairL t.capacity t.entries k v

/-- The table holds key `k` at some slot. -/
def HasKey (t : Table) (k : StrObj) : Prop :=
  ∃ i, i < t.capacity ∧ keyAt t i = some k

/-- Key objects are determined by their character content: the table
never simultaneously holds two distinct string objects with equal data.
(This is the "no two string objects with equal content coexist" clause of
the specification.) -/
def DataInjective (t : Table) : Prop :=
  ∀ k1 k2, HasKey t k1 → HasKey t k2 → k1.data = k2.data → k1 = k2

/-- Pairwise distinctness of key identities along the entry list (the
list form of `UniqueIdL`, convenient for the rehash induction). -/
def EntriesIdInj (es : List Entry) : Prop :=
  es.Pairwise (fun e1 e2 => ∀ k1 k2, e1.key = some k1 → e2.key = some k2 → k1.id ≠ k2.id)

/-- Well-formedness of the interner state: the strings table is
structurally well-formed with reachable chains, keys have correct cached
hashes, identities and contents are unique, and every stored identity is
below the allocator's next fresh identity. -/
def InternWF (st : Interner) : Prop :=
  TableShape st.strings ∧ ChainInv st.strings ∧ HashLaw st.strings ∧
  UniqueId st.strings ∧ DataInjective st.strings ∧
  (∀ i k, i < st.strings.capacity → keyAt st.strings i = some k → k.id < st.nextId)

/-! ## Runtime heap and the call path (`src/clox/vm.c`, `src/clox/vm.h`)

The heap is a finite map from object identities (C pointers) to
per-object payloads carrying the fields the modelled code paths read.
`OBJ_BOUND_METHOD` and the `methods` table of a class appear in
`memory.c` (`freeObject`, `blackenObject`) but their declarations are
missing from the checked-in `object.h`; those two payloads are modelled
from the specification's description of bound methods and class method
tables.  Likewise `vm.initString`, the gray worklist and the compiler
root chain are used by `memory.c`/`compiler.c` but absent from the
checked-in `vm.h` struct; they are modelled from the specification's
root list. -/

/-- `InterpretResult` from `vm.h`. -/
inductive InterpretResult where
  | INTERPRET_OK
  | INTERPRET_COMPILE_ERROR
  | INTERPRET_RUNTIME_ERROR
  deriving Repr, DecidableEq

/-- `FRAMES_MAX` from `vm.h`: the maximum number of active call frames. -/
def FRAMES_MAX : Nat := 64

/-- Per-object payload, one constructor per `ObjectType` tag.  Reference
fields hold object identities; `Option` stands for a possibly-`NULL`
pointer.  A native's C function pointer is modelled as a Lean function
from the argument slice of the stack to the result value. -/
inductive ObjPayload where
  | OBJ_BOUND_METHOD (receiver : Value) (method : Option Nat)
  | OBJ_CLASS (name : Option Nat) (methods : Table)
  | OBJ_CLOSURE (function : Option Nat) (upvalues : List (Option Nat))
  | OBJ_FUNCTION (arity : Nat) (name : Option Nat) (constants : List Value)
  | OBJ_INSTANCE (klass : Option Nat) (fields : Table)
  | OBJ_NATIVE (fn : List Value → Value)
  | OBJ_STRING (str : StrObj)
  | OBJ_UPVALUE (closed : Value)

/-- The slice of the global `VM` struct (plus the allocator's intrusive
object list and mark state) that the modelled handlers and the collector
touch.  The value stack is kept top-first, so `peek(0)` is the head and
the list is the live region `[0, stackTop)`.  `frames` holds the ids of
the active frames' closures (their `ip`/`slots` fields play no part in
the modelled claims); `marked` is the set of object ids whose header bit
`isMarked` is set; `grayStack` is the gray worklist, top first. -/
structure VmState where
  stack : List Value
  frames : List Nat
  openUpvalues : List Nat
  globals : Table
  strings : Table
  compilerFunctions : List Nat
  initString : Option Nat
  objects : List Nat
  heapData : List (Nat × ObjPayload)
  marked : List Nat
  grayStack : List Nat

/-- Heap lookup: dereference an object identity. -/
def heapObj (heap : List (Nat × ObjPayload)) (id : Nat) : Option ObjPayload :=
  (heap.find? (fun p => decide (p.1 = id))).map Prod.snd

/-- `peek` from `vm.c`: `vm.stackTop[-1 - distance]`; with the stack
top-first this is element `distance` from the head.  A peek past the
stack base is C undefined behaviour; the model returns `nil` there and
the theorems never rely on it. -/
def peekVm (vm : VmState) (distance : Nat) : Value :=
  vm.stack.getD distance Value.nil

/-- `call` from `vm.c`: check the argument count against the closure's
function's arity, check for frame overflow, then push the new frame.
The result is the C `bool`, the `runtimeError` message if one was
raised, and the new state; `none` models the undefined behaviour of
dereferencing a dangling `function` pointer. -/
def callClosure (vm : VmState) (closureId : Nat) (function : Option Nat)
    (argCount : Nat) : Option (Bool × Option String × VmState) :=
  match function.bind (heapObj vm.heapData) with
  | some (ObjPayload.OBJ_FUNCTION arity _ _) =>
    if argCount ≠ arity then
      some (false,
        some ("Expected " ++ toString arity ++ " arguments but got "
          ++ toString argCount ++ "."), vm)
    else if vm.frames.length = FRAMES_MAX then
      some (false, some ("Stack overflow."), vm)
    else
      some (true, none, { vm with frames := closureId :: vm.frames })
  | _ => none

/-- `callValue` from `vm.c`: dispatch on the callee.  Closures are
called, natives are invoked directly on the stack slice, and everything
else — non-object values and every other object kind (the `default:
break;` of the switch) — falls through to the single
`runtimeError("Invalid call target.")` at the function's tail, returning
`false`. -/
def callValue (vm : VmState) (callee : Value) (argCount : Nat) :
    Option (Bool × Option String × VmState) :=
  match callee with
  | Value.object id =>
    match heapObj vm.heapData id with
    | some (ObjPayload.OBJ_CLOSURE function _) =>
      callClosure vm id function argCount
    | some (ObjPayload.OBJ_NATIVE fn) =>
      some (true, none,
        { vm with stack := fn (vm.stack.take argCount)
            :: vm.stack.drop (argCount + 1) })
    | some _ => some (false, some ("Invalid call target."), vm)
    | none => none
  | _ => some (false, some ("Invalid call target."), vm)

/-- The `OP_CALL` case of `run`: call the value `argCount` slots below
the top.  A failed call returns `INTERPRET_RUNTIME_ERROR`; a successful
one refreshes the cached frame pointer and continues the dispatch loop
(`none` in the middle component). -/
def runOpCall (vm : VmState) (argCount : Nat) :
    Option (Option String × Option InterpretResult × VmState) :=
  match callValue vm (peekVm vm argCount) argCount with
  | none => none
  | some (false, msg, vm2) =>
    some (msg, some InterpretResult.INTERPRET_RUNTIME_ERROR, vm2)
  | some (true, msg, vm2) => some (msg, none, vm2)

/-- The `OP_SET_GLOBAL` case of `run`: store `peek(0)` under the read
name; when `putTable` reports a fresh key the variable was undefined, so
the just-created entry is deleted again, a runtime error names the
identifier, and interpretation stops with `INTERPRET_RUNTIME_ERROR`.  On
success execution continues; the value is left on the stack (the stack
is untouched — assignment is an expression), net stack effect zero. -/
def runSetGlobal (vm : VmState) (name : StrObj) :
    Option String × Option InterpretResult × VmState :=
  match putTable vm.globals name (peekVm vm 0) with
  | (true, g2) =>
    (some ("Undefined variable '" ++ String.mk name.data ++ "'."),
     some InterpretResult.INTERPRET_RUNTIME_ERROR,
     { vm with globals := (delTable g2 name).2 })
  | (false, g2) => (none, none, { vm with globals := g2 })

/-! ## The mark-sweep collector (`src/clox/memory.c`, `src/clox/table.c`) -/

/-- `markObject` from `memory.c`: a `NULL` pointer or an already-marked
object is skipped; otherwise the mark bit is set and the object goes on
the gray worklist. -/
def markObject (vm : VmState) (obj : Option Nat) : VmState :=
  match obj with
  | none => vm
  | some id =>
    if vm.marked.contains id then vm
    else { vm with marked := id :: vm.marked, grayStack := id :: vm.grayStack }

/-- `markValue` from `memory.c`: only object values carry a reference. -/
def markValue (vm : VmState) (v : Value) : VmState :=
  match v with
  | Value.object id => markObject vm (some id)
  | _ => vm

/-- `markArray` from `memory.c`. -/
def markArray (vm : VmState) (vs : List Value) : VmState :=
  vs.foldl markValue vm

/-- `markForGCTable` from `table.c`: mark every entry's key object and
value (a `NULL` key marks nothing). -/
def markForGCTable (vm : VmState) (t : Table) : VmState :=
  t.entries.foldl
    (fun vm2 e => markValue (markObject vm2 (e.key.map StrObj.id)) e.value) vm

/-- `markCompilerRoots` from `compiler.c`: walk the chain of active
compilers and mark each one's function. -/
def markCompilerRoots (vm : VmState) : VmState :=
  vm.compilerFunctions.foldl (fun vm2 f => markObject vm2 (some f)) vm

/-- `markRoots` from `memory.c`: the stack values in `[0, stackTop)`,
every active frame's closure, every open upvalue, the globals table, the
compiler root chain, and `vm.initString`.  The interner `vm.strings` is
deliberately not marked: its references are weak. -/
def markRoots (vm : VmState) : VmState :=
  let vm1 := vm.stack.foldl markValue vm
  let vm2 := vm.frames.foldl (fun a c => markObject a (some c)) vm1
  let vm3 := vm.openUpvalues.foldl (fun a u => markObject a (some u)) vm2
  let vm4 := markForGCTable vm3 vm.globals
  let vm5 := markCompilerRoots vm4
  markObject vm5 vm.initString

/-- `blackenObject` from `memory.c`: mark everything the object
references, by kind.  Natives and strings hold no references. -/
def blackenObject (vm : VmState) (id : Nat) : VmState :=
  match heapObj vm.heapData id with
  | none => vm
  | some (ObjPayload.OBJ_BOUND_METHOD receiver method) =>
    markObject (markValue vm receiver) method
  | some (ObjPayload.OBJ_CLASS name methods) =>
    markForGCTable (markObject vm name) methods
  | some (ObjPayload.OBJ_CLOSURE function upvalues) =>
    upvalues.foldl markObject (markObject vm function)
  | some (ObjPayload.OBJ_FUNCTION _ name constants) =>
    markArray (markObject vm name) constants
  | some (ObjPayload.OBJ_INSTANCE klass fields) =>
    markForGCTable (markObject vm klass) fields
  | some (ObjPayload.OBJ_NATIVE _) => vm
  | some (ObjPayload.OBJ_STRING _) => vm
  | some (ObjPayload.OBJ_UPVALUE closed) => markValue vm closed

/-- `traceReferences` from `memory.c`, fuelled: pop a gray object and
blacken it until the worklist empties.  The C loop terminates because
every worklist push marks a previously-unmarked object; the fuel stands
in for that termination argument, and the theorems require it to be
large enough for the worklist to empty. -/
def traceReferences (vm : VmState) : Nat → VmState
  | 0 => vm
  | fuel + 1 =>
    match vm.grayStack with
    | [] => vm
    | id :: rest =>
      traceReferences (blackenObject { vm with grayStack := rest } id) fuel

/-- `removeWeakRefsTable` from `table.c`, applied to `vm.strings` as in
`collectGarbage`: delete every interner entry whose key object did not
survive marking. -/
def removeWeakRefsTable (vm : VmState) : VmState :=
  let strings2 :=
    (List.range vm.strings.capacity).foldl
      (fun t i =>
        match (entryAt t.entries i).key with
        | some k => if vm.marked.contains k.id then t else (delTable t k).2
        | none => t) vm.strings
  { vm with strings := strings2 }

/-- `sweep` from `memory.c`: walk the intrusive object list; a marked
object survives with its mark bit cleared, an unmarked one is unlinked
and freed.  (An id in `marked` that is not on the object list keeps its
bit — no such object exists in the C VM, where every allocation is
linked into the list.) -/
def sweep (vm : VmState) : VmState :=
  { vm with
      objects := vm.objects.filter (fun id => vm.marked.contains id),
      marked := vm.marked.filter (fun id => !vm.objects.contains id) }

/-- `collectGarbage` from `memory.c`: mark the roots, trace, drop dead
weak interner references, sweep.  (The `vm.nextGC` bookkeeping has no
model effect.) -/
def collectGarbage (vm : VmState) (fuel : Nat) : VmState :=
  sweep (removeWeakRefsTable (traceReferences (markRoots vm) fuel))

/-! ## The driver (`src/clox/main.c`) -/

/-- The `repl` loop of `main.c`, parameterised by the behaviour of
`interpret`: every line read is interpreted and the result discarded;
the loop leaves only at end of input. -/
def replSession (interp : String → InterpretResult) :
    List String → List InterpretResult
  | [] => []
  | line :: rest => interp line :: replSession interp rest

/-- `main` from `main.c` over the command-line arguments after the
program name: no argument runs the REPL over the lines of standard input
and falls out to `EXIT_SUCCESS` (0); one argument interprets the file's
contents (`readF` standing for `readFile`) and exits `EX_DATAERR` (65)
on a compile error and `EX_SOFTWARE` (70) on a runtime error, otherwise
0; more arguments exit `EX_USAGE` (64).  The first component lists the
calls to `interpret` the process made.  (`readFile`'s own I/O-failure
exits with `EX_IOERR` are outside the model: `readF` is total.) -/
def mainClox (interp : String → InterpretResult)
    (readF : String → String) (args : List String)
    (stdinLines : List String) : List InterpretResult × Nat :=
  match args with
  | [] => (replSession interp stdinLines, 0)
  | [path] =>
    ([interp (readF path)],
     match interp (readF path) with
     | InterpretResult.INTERPRET_COMPILE_ERROR => 65
     | InterpretResult.INTERPRET_RUNTIME_ERROR => 70
     | InterpretResult.INTERPRET_OK => 0)
  | _ => ([], 64)

/-! ## Verification layer: reachability for the collector -/

/-- The object identity a value references, if any. -/
def valueRef (v : Value) : Option Nat :=
  match v with
  | Value.object id => some id
  | _ => none

/-- The references out of a table: every entry's key object and value,
mirroring `markForGCTable`. -/
def tableRefs (t : Table) : List (Option Nat) :=
  t.entries.foldr (fun e acc => e.key.map StrObj.id :: valueRef e.value :: acc) []

/-- The references out of one object, mirroring `blackenObject`. -/
def objRefs (p : ObjPayload) : List (Option Nat) :=
  match p with
  | ObjPayload.OBJ_BOUND_METHOD receiver method => [valueRef receiver, method]
  | ObjPayload.OBJ_CLASS name methods => name :: tableRefs methods
  | ObjPayload.OBJ_CLOSURE function upvalues => function :: upvalues
  | ObjPayload.OBJ_FUNCTION _ name constants => name :: constants.map valueRef
  | ObjPayload.OBJ_INSTANCE klass fields => klass :: tableRefs fields
  | ObjPayload.OBJ_NATIVE _ => []
  | ObjPayload.OBJ_STRING _ => []
  | ObjPayload.OBJ_UPVALUE closed => [valueRef closed]

/-- The root references `markRoots` marks. -/
def rootIds (vm : VmState) : List (Option Nat) :=
  vm.stack.map valueRef ++ vm.frames.map some ++ vm.openUpvalues.map some
    ++ tableRefs vm.globals ++ vm.compilerFunctions.map some
    ++ [vm.initString]

/-- Reachability from the collector's roots through per-kind tracing. -/
inductive ReachableObj (vm : VmState) : Nat → Prop where
  | root (id : Nat) : some id ∈ rootIds vm → ReachableObj vm id
  | step (id id2 : Nat) (p : ObjPayload) : ReachableObj vm id →
      heapObj vm.heapData id = some p → some id2 ∈ objRefs p →
      ReachableObj vm id2

/-- All references out of object `id` lie in the set `marked`. -/
def RefsMarked (heap : List (Nat × ObjPayload)) (marked : List Nat)
    (id : Nat) : Prop :=
  ∀ p id2, heapObj heap id = some p → some id2 ∈ objRefs p → id2 ∈ marked

/-- The tracing invariant: every marked object is still on the gray
worklist, or all its references are already marked. -/
def GrayInv (vm : VmState) : Prop :=
  ∀ id, id ∈ vm.marked → id ∈ vm.grayStack ∨ RefsMarked vm.heapData vm.marked id

/-! ## Concrete states for the VM and collector theorems -/

/-- A VM about to execute `OP_CALL` with the number `7` as the callee
(and an otherwise empty state). -/
def c6Vm : VmState :=
  { stack := [Value.number 7], frames := [], openUpvalues := [],
    globals := initTable, strings := initTable, compilerFunctions := [],
    initString := none, objects := [], heapData := [], marked := [],
    grayStack := [] }

/-- A VM for the collector theorem: the stack references object `0` (an
upvalue), object `1` is garbage. -/
def c9Vm : VmState :=
  { stack := [Value.object 0], frames := [], openUpvalues := [],
    globals := initTable, strings := initTable, compilerFunctions := [],
    initString := none, objects := [0, 1],
    heapData := [(0, ObjPayload.OBJ_UPVALUE Value.nil)], marked := [],
    grayStack := [] }

end Clox

/-! ## Theorems -/

namespace Clox

/-- **C4** (code bug): after `put k1; put k2; delete k1` with `k1`, `k2`
colliding in the same probe chain (hashes 0 and 8, capacity 8), the entry
for `k2` is still physically present with its value, yet `getTable`
returns nothing: the unguarded `return entry;` in `findEntry` makes the
probe stop at `k1`'s tombstone instead of continuing to `k2`'s slot.  The
claim states the lookup returns `(true, v2)`. -/
theorem getTable_misses_key_behind_tombstone :
    getTable c4Table c4k2 = none ∧
    entryAt c4Table.entries 1 = ⟨some c4k2, Value.number 2⟩ := by
  exact ⟨rfl, rfl⟩

/-- **C1** (code bug): scanning `" // c\nx"` does *not* skip the comment
cleanly.  The `case '/':` arm of `skipWhitespace` lacks a `break` after
consuming the comment body and falls through to `default: return;`, so the
newline that terminates the comment is left for `scanToken`, which has no
case for `'\n'` and returns an ERROR token ("Unexpected character").  The
token after the newline is only delivered by the *second* call, and the
line counter has not been advanced (it still reads 1, not 2).  The claim
states that successive `scanToken()` calls deliver the following token
with the line counter advanced and never deliver an ERROR token. -/
theorem scanToken_comment_newline_yields_error :
    (scanToken (initScanner c1Source)).1.type = TokenType.ERROR ∧
    (scanToken (initScanner c1Source)).1.lexeme = "Unexpected character".toList ∧
    (scanToken (scanToken (initScanner c1Source)).2).1 =
      { type := TokenType.IDENTIFIER, lexeme := ['x'], line := 1 } := by
  refine ⟨rfl, rfl, rfl⟩

/-- **C8** (code bug): `isAlpha` in `scanner.c` tests
`(c >= 'A' && c <= 'z')` — upper bound lowercase `'z'` instead of `'Z'` —
so the five ASCII characters strictly between `'Z'` and `'a'`
(`'['`, `'\\'`, `']'`, `'^'`, backtick; `'_'` is legitimately accepted)
are all classified as identifier starts, and an input whose first
character is `'['` is scanned as an IDENTIFIER token, not an ERROR token
as the claim requires. -/
theorem isAlpha_accepts_bracket_range :
    isAlpha '[' = true ∧ isAlpha '\\' = true ∧ isAlpha ']' = true ∧
    isAlpha '^' = true ∧ isAlpha '\x60' = true ∧
    (scanToken (initScanner c8Source)).1.type = TokenType.IDENTIFIER := by
  refine ⟨rfl, rfl, rfl, rfl, rfl, rfl⟩

/-- **C2** (code bug): the `rules` table of `compiler.c` registers the
four comparison operators at `PREC_EQUALITY`, not at `PREC_COMPARISON`
(contradicting the `Precedence` enumeration's own annotation
`PREC_COMPARISON, // < > <= >=`).  Consequently `1 == 2 < 3` is parsed
left-associatively as `(1 == 2) < 3`: the emitted byte stream is
`CONSTANT 0; CONSTANT 1; EQUAL; CONSTANT 2; LESS`, with the comparison
applied to the equality's result — not, as the claim states, the
comparison emitted as the right operand of the equality
(`CONSTANT 0; CONSTANT 1; CONSTANT 2; LESS; EQUAL`). -/
theorem comparison_rules_registered_at_equality :
    (getRule .LESS).precedence = PREC_EQUALITY ∧
    (getRule .LESS_EQUAL).precedence = PREC_EQUALITY ∧
    (getRule .GREATER).precedence = PREC_EQUALITY ∧
    (getRule .GREATER_EQUAL).precedence = PREC_EQUALITY ∧
    PREC_EQUALITY < PREC_COMPARISON ∧
    (compileExpression c2Tokens).code =
      [OP_CONSTANT, 0, OP_CONSTANT, 1, OP_EQUAL, OP_CONSTANT, 2, OP_LESS] ∧
    (compileExpression c2Tokens).code ≠
      [OP_CONSTANT, 0, OP_CONSTANT, 1, OP_CONSTANT, 2, OP_LESS, OP_EQUAL] := by
  refine ⟨rfl, rfl, rfl, rfl, by decide, rfl, by decide⟩

/-- **C3** (code bug): after the two operands, `binary()` emits a single
`LESS` for `<` and a single `GREATER` for `>` exactly as claimed, but the
`TOKEN_GREATER_EQUAL` and `TOKEN_LESS_EQUAL` cases of its `switch` lack a
`break` after `emitBytes`, so `1 >= 2` compiles to `LESS; NOT; LESS`
(falling through into the `TOKEN_LESS` case) and `1 <= 2` compiles to
`GREATER; NOT; ADD` (falling through into the `TOKEN_PLUS` case) — not
the exact two-opcode sequences the claim states. -/
theorem binary_comparison_emission_falls_through :
    (compileExpression [numTok ['1'], opTok .LESS ['<'], numTok ['2']]).code =
      [OP_CONSTANT, 0, OP_CONSTANT, 1, OP_LESS] ∧
    (compileExpression [numTok ['1'], opTok .GREATER ['>'], numTok ['2']]).code =
      [OP_CONSTANT, 0, OP_CONSTANT, 1, OP_GREATER] ∧
    (compileExpression [numTok ['1'], opTok .LESS_EQUAL ['<', '='], numTok ['2']]).code =
      [OP_CONSTANT, 0, OP_CONSTANT, 1, OP_GREATER, OP_NOT, OP_ADD] ∧
    (compileExpression [numTok ['1'], opTok .GREATER_EQUAL ['>', '='], numTok ['2']]).code =
      [OP_CONSTANT, 0, OP_CONSTANT, 1, OP_LESS, OP_NOT, OP_LESS] := by
  refine ⟨rfl, rfl, rfl, rfl⟩

/-! ### Probe arithmetic -/

theorem probe_lt (cap start j : Nat) (h : 0 < cap) : probe cap start j < cap :=
  Nat.mod_lt _ h

theorem probe_self {cap index : Nat} (h : index < cap) : probe cap index 0 = index := by
  simp [probe, Nat.mod_eq_of_lt h]

theorem probe_succ_shift (cap start j : Nat) :
    probe cap start (j + 1) = probe cap ((start + 1) % cap) j := by
  unfold probe
  rw [Nat.mod_add_mod]
  congr 1
  omega

theorem offsetOf_lt {cap : Nat} (start i : Nat) (h : 0 < cap) :
    offsetOf cap start i < cap :=
  Nat.mod_lt _ h

theorem probe_offsetOf {cap i : Nat} (start : Nat) (hi : i < cap) :
    probe cap start (offsetOf cap start i) = i := by
  have hcap : 0 < cap := by omega
  have hs : start % cap < cap := Nat.mod_lt _ hcap
  unfold probe offsetOf
  rw [Nat.add_mod_mod, ← Nat.mod_add_mod]
  have h1 : start % cap + (i + cap - start % cap) = i + cap := by omega
  rw [h1, Nat.add_mod_right, Nat.mod_eq_of_lt hi]

theorem offsetOf_probe {cap j : Nat} (start : Nat) (hj : j < cap) :
    offsetOf cap start (probe cap start j) = j := by
  have hcap : 0 < cap := Nat.pos_of_ne_zero (by omega)
  have hs : start % cap < cap := Nat.mod_lt _ hcap
  unfold probe offsetOf
  rw [← Nat.mod_add_mod]
  rcases Nat.lt_or_ge (start % cap + j) cap with hlt | hge
  · rw [Nat.mod_eq_of_lt hlt]
    have h1 : start % cap + j + cap - start % cap = j + cap := by omega
    rw [h1, Nat.add_mod_right, Nat.mod_eq_of_lt hj]
  · have h2 : start % cap + j < 2 * cap := by omega
    have h3 : (start % cap + j) % cap = start % cap + j - cap := by
      rw [Nat.mod_eq_sub_mod hge, Nat.mod_eq_of_lt (by omega)]
    rw [h3]
    have h4 : start % cap + j - cap + cap - start % cap = j := by omega
    rw [h4, Nat.mod_eq_of_lt hj]

theorem probe_inj {cap start j1 j2 : Nat} (h1 : j1 < cap) (h2 : j2 < cap)
    (he : probe cap start j1 = probe cap start j2) : j1 = j2 := by
  rw [← @offsetOf_probe cap j1 start h1, he, @offsetOf_probe cap j2 start h2]

/-! ### Entry array access -/

theorem entryAt_set_self {es : List Entry} {p : Nat} (e : Entry)
    (h : p < es.length) : entryAt (es.set p e) p = e := by
  simp [entryAt, List.getD_eq_getElem?_getD, List.getElem?_set_self h]

theorem entryAt_set_ne {es : List Entry} {p q : Nat} (e : Entry)
    (h : p ≠ q) : entryAt (es.set p e) q = entryAt es q := by
  simp [entryAt, List.getD_eq_getElem?_getD, List.getElem?_set_ne h]

/-! ### The `findEntry` scan -/

theorem findEntryGo_spec (entries : List Entry) (cap : Nat) (key : StrObj) :
    ∀ fuel index, index < cap →
    (∃ m, m < fuel ∧ isStopE entries key (probe cap index m) = true) →
    ∃ m₀, m₀ < fuel ∧
      (∀ m, m < m₀ → isStopE entries key (probe cap index m) = false) ∧
      isStopE entries key (probe cap index m₀) = true ∧
      findEntryGo entries cap key fuel index none = some (probe cap index m₀) := by
  intro fuel
  induction fuel with
  | zero =>
    rintro index _ ⟨m, hm, _⟩
    omega
  | succ fuel ih =>
    intro index hidx hex
    by_cases hstop : isStopE entries key index = true
    · refine ⟨0, by omega, by omega, ?_, ?_⟩
      · rwa [probe_self hidx]
      · rw [probe_self hidx]
        unfold isStopE at hstop
        cases hk : (entryAt entries index).key with
        | none => simp [findEntryGo, hk]
        | some k =>
          rw [hk] at hstop
          simp only [decide_eq_true_eq] at hstop
          simp [findEntryGo, hk, hstop]
    · have hcap : 0 < cap := by omega
      cases hk : (entryAt entries index).key with
      | none =>
        exfalso
        apply hstop
        unfold isStopE
        rw [hk]
      | some k =>
        have hid : ¬ (k.id = key.id) := by
          intro h
          apply hstop
          unfold isStopE
          rw [hk]
          simpa using h
        obtain ⟨m, hm, hstopm⟩ := hex
        match m with
        | 0 =>
          rw [probe_self hidx] at hstopm
          exact absurd hstopm hstop
        | m' + 1 =>
          have hidx' : (index + 1) % cap < cap := Nat.mod_lt _ hcap
          have hex' : ∃ m', m' < fuel ∧
              isStopE entries key (probe cap ((index + 1) % cap) m') = true := by
            refine ⟨m', by omega, ?_⟩
            rwa [← probe_succ_shift]
          obtain ⟨m₀, hm₀, hmin, hstop₀, hres⟩ := ih ((index + 1) % cap) hidx' hex'
          refine ⟨m₀ + 1, by omega, ?_, ?_, ?_⟩
          · intro m hmlt
            match m with
            | 0 =>
              rw [probe_self hidx]
              simpa using hstop
            | m'' + 1 =>
              rw [probe_succ_shift]
              exact hmin m'' (by omega)
          · rw [probe_succ_shift]
            exact hstop₀
          · rw [probe_succ_shift]
            simpa [findEntryGo, hk, hid] using hres

theorem findEntry_spec {entries : List Entry} {cap : Nat} {key : StrObj}
    (hcap : 0 < cap)
    (hex : ∃ i, i < cap ∧ isStopE entries key i = true) :
    ∃ m₀, m₀ < cap ∧
      (∀ m, m < m₀ → isStopE entries key (probe cap (key.hash % cap) m) = false) ∧
      isStopE entries key (probe cap (key.hash % cap) m₀) = true ∧
      findEntry entries cap key = some (probe cap (key.hash % cap) m₀) := by
  obtain ⟨i, hi, hstop⟩ := hex
  have hidx : key.hash % cap < cap := Nat.mod_lt _ hcap
  have hempty : ∃ m, m < cap ∧
      isStopE entries key (probe cap (key.hash % cap) m) = true := by
    refine ⟨offsetOf cap (key.hash % cap) i, offsetOf_lt _ _ hcap, ?_⟩
    rw [probe_offsetOf _ hi]
    exact hstop
  exact findEntryGo_spec entries cap key cap (key.hash % cap) hidx hempty

/-! ### The `findStringTable` scan -/

theorem findStringGo_spec (entries : List Entry) (cap : Nat) (data : List Char)
    (hash : Nat) :
    ∀ fuel index, index < cap →
    (∃ m, m < fuel ∧ isStopS entries data hash (probe cap index m) = true) →
    ∃ m₀, m₀ < fuel ∧
      (∀ m, m < m₀ → isStopS entries data hash (probe cap index m) = false) ∧
      isStopS entries data hash (probe cap index m₀) = true ∧
      findStringGo entries cap data hash fuel index =
        (entryAt entries (probe cap index m₀)).key := by
  intro fuel
  induction fuel with
  | zero =>
    rintro index _ ⟨m, hm, _⟩
    omega
  | succ fuel ih =>
    intro index hidx hex
    by_cases hstop : isStopS entries data hash index = true
    · refine ⟨0, by omega, by omega, ?_, ?_⟩
      · rwa [probe_self hidx]
      · rw [probe_self hidx]
        unfold isStopS at hstop
        cases hk : (entryAt entries index).key with
        | none =>
          rw [hk] at hstop
          simp only [decide_eq_true_eq] at hstop
          simp [findStringGo, hk, hstop]
        | some k =>
          rw [hk] at hstop
          simp only [decide_eq_true_eq] at hstop
          simp [findStringGo, hk, hstop]
    · have hcap : 0 < cap := by omega
      have hidx' : (index + 1) % cap < cap := Nat.mod_lt _ hcap
      obtain ⟨m, hm, hstopm⟩ := hex
      have hnext : findStringGo entries cap data hash (fuel + 1) index =
          findStringGo entries cap data hash fuel ((index + 1) % cap) := by
        unfold isStopS at hstop
        cases hk : (entryAt entries index).key with
        | none =>
          rw [hk] at hstop
          simp only [decide_eq_true_eq] at hstop
          simp [findStringGo, hk, hstop]
        | some k =>
          rw [hk] at hstop
          simp only [decide_eq_true_eq] at hstop
          simp [findStringGo, hk, hstop]
      match m with
      | 0 =>
        rw [probe_self hidx] at hstopm
        exact absurd hstopm hstop
      | m' + 1 =>
        have hex' : ∃ m', m' < fuel ∧
            isStopS entries data hash (probe cap ((index + 1) % cap) m') = true := by
          refine ⟨m', by omega, ?_⟩
          rwa [← probe_succ_shift]
        obtain ⟨m₀, hm₀, hmin, hstop₀, hres⟩ := ih ((index + 1) % cap) hidx' hex'
        refine ⟨m₀ + 1, by omega, ?_, ?_, ?_⟩
        · intro m hmlt
          match m with
          | 0 =>
            rw [probe_self hidx]
            simpa using hstop
          | m'' + 1 =>
            rw [probe_succ_shift]
            exact hmin m'' (by omega)
        · rw [probe_succ_shift]
          exact hstop₀
        · rw [probe_succ_shift, hnext]
          exact hres

/-! ### Slot counting -/

theorem counts_partition (es : List Entry) :
    occCount es + tombCount es + empCount es = es.length := by
  induction es with
  | nil => rfl
  | cons e tl ih =>
    unfold occCount tombCount empCount at *
    cases hk : e.key <;> by_cases hv : e.value = Value.nil <;>
      simp [List.countP_cons, hk, hv] <;> omega

theorem entryAt_def (es : List Entry) (i : Nat) :
    entryAt es i = es.getD i ⟨none, Value.nil⟩ := rfl

theorem exists_empty_slot {es : List Entry}
    (h : 0 < empCount es) :
    ∃ i, i < es.length ∧ (entryAt es i).key = none ∧
      (entryAt es i).value = Value.nil := by
  unfold empCount at h
  rw [List.countP_pos_iff] at h
  obtain ⟨e, he, hp⟩ := h
  obtain ⟨i, hi, hei⟩ := List.getElem_of_mem he
  refine ⟨i, hi, ?_⟩
  have : entryAt es i = e := by
    simp [entryAt, List.getD_eq_getElem?_getD, List.getElem?_eq_getElem hi, hei]
  rw [this]
  simp only [Bool.and_eq_true, Option.isNone_iff_eq_none, decide_eq_true_eq] at hp
  exact hp

theorem countP_set_add (p : Entry → Bool) (es : List Entry) :
    ∀ i e, i < es.length →
    (es.set i e).countP p + (if p (entryAt es i) then 1 else 0)
      = es.countP p + (if p e then 1 else 0) := by
  induction es with
  | nil => intro i e h; simp at h
  | cons a tl ih =>
    intro i e h
    cases i with
    | zero =>
      cases hpa : p a <;> cases hpe : p e <;>
        simp [List.countP_cons, entryAt, hpa, hpe]
    | succ i =>
      have h' : i < tl.length := by simpa using h
      have := ih i e h'
      cases hpa : p a <;>
        simp only [List.set_cons_succ, List.countP_cons, hpa, entryAt,
          List.getD_cons_succ] at this ⊢ <;> omega

/-! ### Inserting a fresh key at the slot `findEntry` designates -/

theorem findEntry_fresh {es : List Entry} {cap : Nat} {key : StrObj}
    (hcap : 0 < cap) (hlen : es.length = cap)
    (hemp : 0 < empCount es) (hno : NoIdL cap es key.id) :
    ∃ p, p < cap ∧ findEntry es cap key = some p ∧
      (entryAt es p).key = none ∧
      ∀ j, j < offsetOf cap (key.hash % cap) p →
        (entryAt es (probe cap (key.hash % cap) j)).key.isSome := by
  obtain ⟨i, hi, hki, _⟩ := exists_empty_slot hemp
  rw [hlen] at hi
  have hstopi : isStopE es key i = true := by
    unfold isStopE
    rw [hki]
  obtain ⟨m₀, hm₀, hmin, hstop₀, hfind⟩ := findEntry_spec hcap ⟨i, hi, hstopi⟩
  refine ⟨probe cap (key.hash % cap) m₀, probe_lt _ _ _ hcap, hfind, ?_, ?_⟩
  · unfold isStopE at hstop₀
    cases hk : (entryAt es (probe cap (key.hash % cap) m₀)).key with
    | none => rfl
    | some k =>
      rw [hk] at hstop₀
      simp only [decide_eq_true_eq] at hstop₀
      exact absurd hstop₀ (hno _ k (probe_lt _ _ _ hcap) hk)
  · intro j hj
    rw [offsetOf_probe _ hm₀] at hj
    have hm := hmin j hj
    unfold isStopE at hm
    cases hk : (entryAt es (probe cap (key.hash % cap) j)).key with
    | none => rw [hk] at hm; simp at hm
    | some k => simp

theorem chainInvL_insert {es : List Entry} {cap : Nat} {key : StrObj} {v : Value}
    {p : Nat} (hchain : ChainInvL cap es) (hlen : es.length = cap) (hp : p < cap)
    (hpre : ∀ j, j < offsetOf cap (key.hash % cap) p →
        (entryAt es (probe cap (key.hash % cap) j)).key.isSome) :
    ChainInvL cap (es.set p ⟨some key, v⟩) := by
  intro i k hi hki j hj
  have hplen : p < es.length := by omega
  by_cases hip : i = p
  · have hki2 : k = key := by
      rw [hip, entryAt_set_self _ hplen] at hki
      simpa using hki.symm
    rw [hip] at hj
    rw [hki2] at hj ⊢
    have hoff : offsetOf cap (key.hash % cap) p < cap := offsetOf_lt _ _ (by omega)
    have hj2 : j < cap := by omega
    have hne : p ≠ probe cap (key.hash % cap) j := by
      intro he
      have heq : probe cap (key.hash % cap) j = probe cap (key.hash % cap)
          (offsetOf cap (key.hash % cap) p) := by
        rw [probe_offsetOf _ hp, ← he]
      have := probe_inj hj2 hoff heq
      omega
    rw [entryAt_set_ne _ hne]
    have hsome := hpre j hj
    intro hempty
    rw [hempty.1] at hsome
    simp at hsome
  · rw [entryAt_set_ne _ (fun h => hip h.symm)] at hki
    have hold := hchain i k hi hki j hj
    by_cases hq : p = probe cap (k.hash % cap) j
    · rw [← hq, entryAt_set_self _ hplen]
      intro hempty
      simp [slotEmpty] at hempty
    · rw [entryAt_set_ne _ hq]
      exact hold

theorem hasPairL_insert {es : List Entry} {cap : Nat} {key : StrObj} {v : Value}
    {p : Nat} (hlen : es.length = cap) (hp : p < cap)
    (hempty : (entryAt es p).key = none) :
    ∀ k' v', HasPairL cap (es.set p ⟨some key, v⟩) k' v' ↔
      (HasPairL cap es k' v' ∨ (k' = key ∧ v' = v)) := by
  intro k' v'
  have hplen : p < es.length := by omega
  constructor
  · rintro ⟨i, hi, hei⟩
    by_cases hip : i = p
    · rw [hip, entryAt_set_self _ hplen] at hei
      right
      simp only [Entry.mk.injEq, Option.some.injEq] at hei
      exact ⟨hei.1.symm, hei.2.symm⟩
    · rw [entryAt_set_ne _ (fun h => hip h.symm)] at hei
      exact Or.inl ⟨i, hi, hei⟩
  · rintro (⟨i, hi, hei⟩ | ⟨hk, hv⟩)
    · have hip : i ≠ p := by
        intro h
        rw [h] at hei
        rw [hei] at hempty
        simp at hempty
      refine ⟨i, hi, ?_⟩
      rw [entryAt_set_ne _ (fun h => hip h.symm)]
      exact hei
    · refine ⟨p, hp, ?_⟩
      rw [entryAt_set_self _ hplen, hk, hv]

theorem uniqueIdL_insert {es : List Entry} {cap : Nat} {key : StrObj} {v : Value}
    {p : Nat} (huniq : UniqueIdL cap es) (hlen : es.length = cap) (hp : p < cap)
    (hno : NoIdL cap es key.id) :
    UniqueIdL cap (es.set p ⟨some key, v⟩) := by
  intro i j ki kj hi hj hki hkj hij
  have hplen : p < es.length := by omega
  by_cases hip : i = p
  · have hki2 : ki = key := by
      rw [hip, entryAt_set_self _ hplen] at hki
      simpa using hki.symm
    have hjp : j ≠ p := fun h => hij (hip.trans h.symm)
    rw [entryAt_set_ne _ (fun h => hjp h.symm)] at hkj
    rw [hki2]
    exact fun h => hno j kj hj hkj h.symm
  · rw [entryAt_set_ne _ (fun h => hip h.symm)] at hki
    by_cases hjp : j = p
    · have hkj2 : kj = key := by
        rw [hjp, entryAt_set_self _ hplen] at hkj
        simpa using hkj.symm
      rw [hkj2]
      exact fun h => hno i ki hi hki h
    · rw [entryAt_set_ne _ (fun h => hjp h.symm)] at hkj
      exact huniq i j ki kj hi hj hki hkj hij

/-! ### The rehash (`adjustCapacity`) -/

theorem entryAt_eq_getElem {es : List Entry} {i : Nat} (h : i < es.length) :
    entryAt es i = es[i] := by
  simp [entryAt, List.getD_eq_getElem?_getD, List.getElem?_eq_getElem h]

theorem entryAt_mem {es : List Entry} {i : Nat} (h : i < es.length) :
    entryAt es i ∈ es := by
  rw [entryAt_eq_getElem h]
  exact List.getElem_mem h

theorem uniqueIdL_to_entriesIdInj {es : List Entry} {cap : Nat}
    (hlen : es.length = cap) (h : UniqueIdL cap es) : EntriesIdInj es := by
  rw [EntriesIdInj, List.pairwise_iff_getElem]
  intro i j hi hj hij k1 k2 h1 h2
  exact h i j k1 k2 (by omega) (by omega)
    (by rw [entryAt_eq_getElem hi]; exact h1)
    (by rw [entryAt_eq_getElem hj]; exact h2) (by omega)

theorem hasPairL_iff_mem {es : List Entry} {cap : Nat} (hlen : es.length = cap)
    (k : StrObj) (v : Value) :
    HasPairL cap es k v ↔ (Entry.mk (some k) v) ∈ es := by
  constructor
  · rintro ⟨i, hi, hei⟩
    rw [← hei]
    exact entryAt_mem (by omega)
  · intro hmem
    obtain ⟨i, hi, hei⟩ := List.getElem_of_mem hmem
    exact ⟨i, by omega, by rw [entryAt_eq_getElem hi, hei]⟩

theorem tombCount_zero_empty {es : List Entry} {p : Nat}
    (htomb : tombCount es = 0) (hp : p < es.length)
    (hkey : (entryAt es p).key = none) : (entryAt es p).value = Value.nil := by
  unfold tombCount at htomb
  rw [List.countP_eq_zero] at htomb
  have h := htomb _ (entryAt_mem hp)
  simpa [hkey] using h

theorem occCount_set_some {es : List Entry} {p : Nat} {key : StrObj} {v : Value}
    (hp : p < es.length) (hkey : (entryAt es p).key = none) :
    occCount (es.set p ⟨some key, v⟩) = occCount es + 1 := by
  have h2 := countP_set_add (fun e => e.key.isSome) es p ⟨some key, v⟩ hp
  simp [hkey] at h2
  unfold occCount
  omega

theorem adjustFold_spec (newcap : Nat) :
    ∀ (rest done arr : List Entry) (cnt : Nat),
    EntriesIdInj (done ++ rest) →
    occCount (done ++ rest) < newcap →
    arr.length = newcap →
    cnt = occCount arr →
    occCount arr = occCount done →
    tombCount arr = 0 →
    ChainInvL newcap arr →
    (∀ k v, HasPairL newcap arr k v ↔ (Entry.mk (some k) v) ∈ done) →
    UniqueIdL newcap arr →
    (rest.foldl (adjustStep newcap) (arr, cnt)).1.length = newcap ∧
    (rest.foldl (adjustStep newcap) (arr, cnt)).2 =
      occCount (rest.foldl (adjustStep newcap) (arr, cnt)).1 ∧
    tombCount (rest.foldl (adjustStep newcap) (arr, cnt)).1 = 0 ∧
    ChainInvL newcap (rest.foldl (adjustStep newcap) (arr, cnt)).1 ∧
    (∀ k v, HasPairL newcap (rest.foldl (adjustStep newcap) (arr, cnt)).1 k v ↔
      (Entry.mk (some k) v) ∈ done ++ rest) ∧
    UniqueIdL newcap (rest.foldl (adjustStep newcap) (arr, cnt)).1 ∧
    occCount (rest.foldl (adjustStep newcap) (arr, cnt)).1 =
      occCount (done ++ rest) := by
  intro rest
  induction rest with
  | nil =>
    intro done arr cnt hinj hocc hlen hcnt hoccd htomb hchain hpairs huniq
    simpa using ⟨hlen, hcnt, htomb, hchain, hpairs, huniq, hoccd⟩
  | cons e rest ih =>
    intro done arr cnt hinj hocc hlen hcnt hoccd htomb hchain hpairs huniq
    have hassoc : done ++ e :: rest = (done ++ [e]) ++ rest := by simp
    cases he : e.key with
    | none =>
      have hstep : adjustStep newcap (arr, cnt) e = (arr, cnt) := by
        unfold adjustStep
        rw [he]
      rw [List.foldl_cons, hstep]
      have hpairs2 : ∀ k v, HasPairL newcap arr k v ↔
          (Entry.mk (some k) v) ∈ done ++ [e] := by
        intro k v
        rw [hpairs k v, List.mem_append]
        constructor
        · exact Or.inl
        · rintro (h | h)
          · exact h
          · simp only [List.mem_singleton] at h
            rw [← h] at he
            simp at he
      have hoccd2 : occCount arr = occCount (done ++ [e]) := by
        unfold occCount at *
        rw [List.countP_append]
        simp [List.countP_cons, he]
        omega
      have := ih (done ++ [e]) arr cnt (by rwa [← hassoc]) (by rwa [← hassoc])
        hlen hcnt hoccd2 htomb hchain hpairs2 huniq
      rw [hassoc]
      exact this
    | some k =>
      have hcap : 0 < newcap := by omega
      have hnoid : NoIdL newcap arr k.id := by
        intro i ki hi hki
        have hpair : HasPairL newcap arr ki (entryAt arr i).value :=
          ⟨i, hi, by rw [← hki]⟩
        have hmem := (hpairs ki (entryAt arr i).value).mp hpair
        obtain ⟨-, -, hcross⟩ := List.pairwise_append.mp hinj
        exact hcross _ hmem e (by simp) ki k rfl he
      have hee : e = Entry.mk (some k) e.value := by
        cases e with
        | mk ek ev =>
          simp only at he
          rw [he]
      have hoccStep : occCount (done ++ e :: rest) =
          occCount done + (occCount rest + 1) := by
        unfold occCount
        rw [List.countP_append, List.countP_cons]
        simp [he]
      have hoccarr : occCount arr < newcap := by omega
      have hemp : 0 < empCount arr := by
        have hpart := counts_partition arr
        omega
      obtain ⟨p, hp, hfind, hkeyp, hpre⟩ :=
        findEntry_fresh hcap hlen hemp hnoid
      have hplen : p < arr.length := by omega
      have hvalp : (entryAt arr p).value = Value.nil :=
        tombCount_zero_empty htomb hplen hkeyp
      have hstep : adjustStep newcap (arr, cnt) e =
          (arr.set p ⟨some k, e.value⟩, cnt + 1) := by
        simp [adjustStep, he, hfind]
      rw [List.foldl_cons, hstep]
      have hlen2 : (arr.set p ⟨some k, e.value⟩).length = newcap := by
        simpa using hlen
      have hocc2 : occCount (arr.set p ⟨some k, e.value⟩) = occCount arr + 1 :=
        occCount_set_some hplen hkeyp
      have htomb2 : tombCount (arr.set p ⟨some k, e.value⟩) = 0 := by
        have hts := countP_set_add
          (fun e2 => e2.key.isNone && !(e2.value = Value.nil : Bool)) arr p
          ⟨some k, e.value⟩ hplen
        simp [hkeyp, hvalp] at hts
        unfold tombCount at htomb ⊢
        omega
      have hchain2 : ChainInvL newcap (arr.set p ⟨some k, e.value⟩) :=
        chainInvL_insert hchain hlen hp hpre
      have hpairs2 : ∀ k2 v2,
          HasPairL newcap (arr.set p ⟨some k, e.value⟩) k2 v2 ↔
          (Entry.mk (some k2) v2) ∈ done ++ [e] := by
        intro k2 v2
        rw [hasPairL_insert hlen hp hkeyp, hpairs k2 v2, List.mem_append]
        constructor
        · rintro (h | ⟨h1, h2⟩)
          · exact Or.inl h
          · refine Or.inr ?_
            simp only [List.mem_singleton]
            rw [h1, h2, ← hee]
        · rintro (h | h)
          · exact Or.inl h
          · simp only [List.mem_singleton] at h
            have hk2 : some k2 = some k := by
              rw [show some k2 = (Entry.mk (some k2) v2).key from rfl, h, he]
            have hv2 : v2 = e.value := by
              rw [show v2 = (Entry.mk (some k2) v2).value from rfl, h]
            exact Or.inr ⟨by simpa using hk2, hv2⟩
      have huniq2 : UniqueIdL newcap (arr.set p ⟨some k, e.value⟩) :=
        uniqueIdL_insert huniq hlen hp hnoid
      have hoccd2 : occCount (arr.set p ⟨some k, e.value⟩) =
          occCount (done ++ [e]) := by
        rw [hocc2, hoccd]
        unfold occCount
        rw [List.countP_append, List.countP_cons]
        simp [he]
      have hres := ih (done ++ [e]) (arr.set p ⟨some k, e.value⟩) (cnt + 1)
        (by rwa [← hassoc]) (by rwa [← hassoc]) hlen2 (by omega) hoccd2 htomb2
        hchain2 hpairs2 huniq2
      rw [hassoc]
      exact hres

theorem entryAt_replicate {n i : Nat} :
    entryAt (List.replicate n (⟨none, Value.nil⟩ : Entry)) i = ⟨none, Value.nil⟩ := by
  rcases Nat.lt_or_ge i n with h | h
  · simp [entryAt, List.getD_eq_getElem?_getD, List.getElem?_replicate, h]
  · simp [entryAt, List.getD_eq_getElem?_getD, List.getElem?_replicate,
      Nat.not_lt.mpr h]

theorem adjustCapacity_spec {t : Table} {newcap : Nat}
    (hlen : t.entries.length = t.capacity)
    (hocc : occCount t.entries < newcap)
    (huniq : UniqueIdL t.capacity t.entries) :
    (adjustCapacity t newcap).capacity = newcap ∧
    (adjustCapacity t newcap).entries.length = newcap ∧
    (adjustCapacity t newcap).count = occCount (adjustCapacity t newcap).entries ∧
    tombCount (adjustCapacity t newcap).entries = 0 ∧
    ChainInvL newcap (adjustCapacity t newcap).entries ∧
    (∀ k v, HasPairL newcap (adjustCapacity t newcap).entries k v ↔
      HasPairL t.capacity t.entries k v) ∧
    UniqueIdL newcap (adjustCapacity t newcap).entries ∧
    (adjustCapacity t newcap).count = occCount t.entries := by
  have hrep : ∀ i : Nat,
      entryAt (List.replicate newcap (⟨none, Value.nil⟩ : Entry)) i =
        ⟨none, Value.nil⟩ := fun _ => entryAt_replicate
  have hocc0 : occCount (List.replicate newcap (⟨none, Value.nil⟩ : Entry)) = 0 := by
    unfold occCount
    rw [List.countP_eq_zero]
    intro a ha
    rw [List.eq_of_mem_replicate ha]
    simp
  have htomb0 : tombCount (List.replicate newcap (⟨none, Value.nil⟩ : Entry)) = 0 := by
    unfold tombCount
    rw [List.countP_eq_zero]
    intro a ha
    rw [List.eq_of_mem_replicate ha]
    simp
  have hchain0 : ChainInvL newcap (List.replicate newcap (⟨none, Value.nil⟩ : Entry)) := by
    intro i k hi hki
    rw [hrep i] at hki
    simp at hki
  have hpairs0 : ∀ k v,
      HasPairL newcap (List.replicate newcap (⟨none, Value.nil⟩ : Entry)) k v ↔
        (Entry.mk (some k) v) ∈ ([] : List Entry) := by
    intro k v
    simp only [List.not_mem_nil, iff_false]
    rintro ⟨i, hi, hei⟩
    rw [hrep i] at hei
    simp at hei
  have huniq0 : UniqueIdL newcap (List.replicate newcap (⟨none, Value.nil⟩ : Entry)) := by
    intro i j ki kj hi hj hki
    rw [hrep i] at hki
    simp at hki
  have hspec := adjustFold_spec newcap t.entries []
    (List.replicate newcap (⟨none, Value.nil⟩ : Entry)) 0
    (by simpa using uniqueIdL_to_entriesIdInj hlen huniq)
    (by simpa using hocc)
    (by simp)
    hocc0.symm
    (by simpa using hocc0)
    htomb0 hchain0 hpairs0 huniq0
  obtain ⟨h1, h2, h3, h4, h5, h6, h7⟩ := hspec
  refine ⟨rfl, h1, h2, h3, h4, ?_, h6, h2.trans h7⟩
  intro k v
  have hh := h5 k v
  simp only [List.nil_append] at hh
  exact hh.trans (hasPairL_iff_mem hlen k v).symm

theorem strictChain_of_no_tomb {t : Table}
    (hlen : t.entries.length = t.capacity)
    (hchain : ChainInv t) (htomb : tombCount t.entries = 0) :
    StrictChainInv t := by
  intro i k hi hki j hj
  have h := hchain i k hi hki j hj
  cases hk : (entryAt t.entries (probe t.capacity (k.hash % t.capacity) j)).key with
  | none =>
    exfalso
    have hcap : 0 < t.capacity := by omega
    have hplt : probe t.capacity (k.hash % t.capacity) j < t.capacity :=
      probe_lt _ _ _ hcap
    have hv := tombCount_zero_empty htomb (by omega) hk
    exact h ⟨hk, hv⟩
  | some k2 => simp

theorem occ_le_count {t : Table}
    (hcnt : t.count = occCount t.entries + tombCount t.entries) :
    occCount t.entries ≤ t.count := by omega

theorem putGrown_spec {t : Table} (hshape : TableShape t) (hchain : ChainInv t)
    (huniq : UniqueId t) :
    (putGrown t).entries.length = (putGrown t).capacity ∧
    0 < (putGrown t).capacity ∧
    (putGrown t).count = occCount (putGrown t).entries + tombCount (putGrown t).entries ∧
    4 * ((putGrown t).count + 1) ≤ 3 * (putGrown t).capacity ∧
    ChainInv (putGrown t) ∧
    UniqueId (putGrown t) ∧
    (∀ k v, HasPair (putGrown t) k v ↔ HasPair t k v) ∧
    (StrictChainInv t → StrictChainInv (putGrown t)) := by
  obtain ⟨hlen, hcnt, hload⟩ := hshape
  by_cases hg : needsGrow t
  · have hgrow : putGrown t = adjustCapacity t (growCapacity t.capacity) := by
      unfold putGrown
      rw [if_pos hg]
    have hoccnew : occCount t.entries < growCapacity t.capacity := by
      have h1 : occCount t.entries ≤ t.count := by omega
      unfold growCapacity
      by_cases hc : t.capacity < 8
      · rw [if_pos hc]
        omega
      · rw [if_neg hc]
        omega
    obtain ⟨hc1, hc2, hc3, hc4, hc5, hc6, hc7, hc8⟩ :=
      adjustCapacity_spec hlen hoccnew huniq
    rw [hgrow]
    have hgc : 8 ≤ growCapacity t.capacity := by
      unfold growCapacity
      by_cases hc : t.capacity < 8
      · rw [if_pos hc]
      · rw [if_neg hc]
        omega
    refine ⟨by rw [hc1, hc2], by rw [hc1]; omega, by rw [hc3, hc4]; omega, ?_, ?_, ?_, ?_, ?_⟩
    · -- 4 * (count' + 1) ≤ 3 * cap'
      rw [hc1, hc8]
      unfold growCapacity
      by_cases hc : t.capacity < 8
      · rw [if_pos hc]
        have : occCount t.entries ≤ t.count := by omega
        omega
      · rw [if_neg hc]
        have : occCount t.entries ≤ t.count := by omega
        omega
    · unfold ChainInv
      rw [hc1]
      exact hc5
    · unfold UniqueId
      rw [hc1]
      exact hc7
    · intro k v
      unfold HasPair
      rw [hc1]
      exact hc6 k v
    · intro _
      refine strictChain_of_no_tomb (hc2.trans hc1.symm) ?_ hc4
      unfold ChainInv
      rw [hc1]
      exact hc5
  · have hgrow : putGrown t = t := by
      unfold putGrown
      rw [if_neg hg]
    rw [hgrow]
    unfold needsGrow at hg
    simp only [gt_iff_lt, decide_eq_true_eq, Nat.not_lt] at hg
    have hcap : 0 < t.capacity := by omega
    exact ⟨hlen, hcap, hcnt, by omega, hchain, huniq, fun k v => Iff.rfl, fun h => h⟩

/-! ### `putInsert`, `delTable`, `getTable` at designated slots -/

theorem putInsert_fresh {t : Table} {key : StrObj} {v : Value}
    (hcap : 0 < t.capacity) (hlen : t.entries.length = t.capacity)
    (hemp : 0 < empCount t.entries) (hno : NoId t key.id) :
    ∃ p, p < t.capacity ∧
      (entryAt t.entries p).key = none ∧
      (∀ j, j < offsetOf t.capacity (key.hash % t.capacity) p →
        (entryAt t.entries (probe t.capacity (key.hash % t.capacity) j)).key.isSome) ∧
      putInsert t key v =
        (true,
         { t with
            entries := t.entries.set p ⟨some key, v⟩
            count := if (entryAt t.entries p).value = Value.nil then t.count + 1
                     else t.count }) := by
  obtain ⟨p, hp, hfind, hkeyp, hpre⟩ := findEntry_fresh hcap hlen hemp hno
  refine ⟨p, hp, hkeyp, hpre, ?_⟩
  unfold putInsert
  rw [hfind]
  by_cases hv : (entryAt t.entries p).value = Value.nil <;> simp [hkeyp, hv]

theorem findEntry_at_key {es : List Entry} {cap : Nat} {key : StrObj} {p : Nat}
    (hcap : 0 < cap) (hp : p < cap)
    (hkeyp : ∃ k2, (entryAt es p).key = some k2 ∧ k2.id = key.id)
    (hpre : ∀ j, j < offsetOf cap (key.hash % cap) p →
      ∃ k2, (entryAt es (probe cap (key.hash % cap) j)).key = some k2 ∧
        k2.id ≠ key.id) :
    findEntry es cap key = some p := by
  obtain ⟨kp, hkp, hkpid⟩ := hkeyp
  have hstopp : isStopE es key p = true := by
    unfold isStopE
    rw [hkp]
    simpa using hkpid
  obtain ⟨m₀, hm₀, hmin, hstop₀, hfind⟩ := findEntry_spec hcap ⟨p, hp, hstopp⟩
  have hoffp : offsetOf cap (key.hash % cap) p < cap := offsetOf_lt _ _ hcap
  have hple : m₀ = offsetOf cap (key.hash % cap) p := by
    rcases Nat.lt_trichotomy m₀ (offsetOf cap (key.hash % cap) p) with h | h | h
    · exfalso
      obtain ⟨k2, hk2, hk2id⟩ := hpre m₀ h
      unfold isStopE at hstop₀
      rw [hk2] at hstop₀
      simp only [decide_eq_true_eq] at hstop₀
      exact hk2id hstop₀
    · exact h
    · exfalso
      have := hmin _ h
      rw [probe_offsetOf _ hp, hstopp] at this
      simp at this
  rw [hple, probe_offsetOf _ hp] at hfind
  exact hfind

theorem putInsert_present {t : Table} {key : StrObj} {v : Value} {q : Nat}
    {k2 : StrObj}
    (hfind : findEntry t.entries t.capacity key = some q)
    (hkeyq : (entryAt t.entries q).key = some k2) :
    putInsert t key v =
      (false, { t with entries := t.entries.set q ⟨some key, v⟩ }) := by
  unfold putInsert
  rw [hfind]
  simp [hkeyq]

theorem delTable_at {t : Table} {key : StrObj} {q : Nat} {k2 : StrObj}
    (hcount : t.count ≠ 0)
    (hfind : findEntry t.entries t.capacity key = some q)
    (hkeyq : (entryAt t.entries q).key = some k2) :
    delTable t key =
      (true, { t with entries := t.entries.set q ⟨none, Value.bool true⟩ }) := by
  unfold delTable
  rw [if_neg hcount]
  simp [hfind, hkeyq]

theorem getTable_none_at {t : Table} {key : StrObj} {p : Nat}
    (hcap : 0 < t.capacity) (hp : p < t.capacity)
    (hkeyp : (entryAt t.entries p).key = none)
    (hpre : ∀ j, j < offsetOf t.capacity (key.hash % t.capacity) p →
      ∃ k2, (entryAt t.entries (probe t.capacity (key.hash % t.capacity) j)).key
          = some k2 ∧ k2.id ≠ key.id) :
    getTable t key = none := by
  unfold getTable
  by_cases hc : t.count = 0
  · rw [if_pos hc]
  · rw [if_neg hc]
    have hstopp : isStopE t.entries key p = true := by
      unfold isStopE
      rw [hkeyp]
    obtain ⟨m₀, hm₀, hmin, hstop₀, hfind⟩ := findEntry_spec hcap ⟨p, hp, hstopp⟩
    have heq : m₀ = offsetOf t.capacity (key.hash % t.capacity) p := by
      rcases Nat.lt_trichotomy m₀ (offsetOf t.capacity (key.hash % t.capacity) p)
        with h | h | h
      · exfalso
        obtain ⟨k2, hk2, hk2id⟩ := hpre m₀ h
        unfold isStopE at hstop₀
        rw [hk2] at hstop₀
        simp only [decide_eq_true_eq] at hstop₀
        exact hk2id hstop₀
      · exact h
      · exfalso
        have := hmin _ h
        rw [probe_offsetOf _ hp, hstopp] at this
        simp at this
    rw [heq, probe_offsetOf _ hp] at hfind
    simp [hfind, hkeyp]

theorem getTable_some_at {t : Table} {key : StrObj} {q : Nat}
    (hcap : 0 < t.capacity) (hq : q < t.capacity) (hcount : t.count ≠ 0)
    (hkeyq : (entryAt t.entries q).key = some key)
    (hpre : ∀ j, j < offsetOf t.capacity (key.hash % t.capacity) q →
      ∃ k2, (entryAt t.entries (probe t.capacity (key.hash % t.capacity) j)).key
          = some k2 ∧ k2.id ≠ key.id) :
    getTable t key = some (entryAt t.entries q).value := by
  unfold getTable
  rw [if_neg hcount]
  have hfind := findEntry_at_key hcap hq ⟨key, hkeyq, rfl⟩ hpre
  simp [hfind, hkeyq]

/-! ### `findStringTable`: soundness and completeness -/

theorem findStringGo_sound {entries : List Entry} {cap : Nat} {data : List Char}
    {hash : Nat} :
    ∀ fuel index k, index < cap →
      findStringGo entries cap data hash fuel index = some k →
      ∃ i, i < cap ∧ (entryAt entries i).key = some k ∧ k.data = data ∧
        k.hash = hash := by
  intro fuel
  induction fuel with
  | zero =>
    intro index k _ h
    simp [findStringGo] at h
  | succ fuel ih =>
    intro index k hidx h
    have hcap : 0 < cap := by omega
    cases hk : (entryAt entries index).key with
    | none =>
      simp only [findStringGo, hk] at h
      by_cases hv : (entryAt entries index).value = Value.nil
      · simp [hv] at h
      · simp only [hv, if_neg, ite_false] at h
        exact ih _ _ (Nat.mod_lt _ hcap) (by simpa [hv] using h)
    | some k0 =>
      simp only [findStringGo, hk] at h
      by_cases hm : k0.data.length = data.length ∧ k0.hash = hash ∧ k0.data = data
      · rw [if_pos hm] at h
        have hk0 : k0 = k := by simpa using h
        subst hk0
        exact ⟨index, hidx, hk, hm.2.2, hm.2.1⟩
      · rw [if_neg hm] at h
        exact ih _ _ (Nat.mod_lt _ hcap) h

theorem count_ne_zero_of_key {t : Table} {i : Nat} {k : StrObj}
    (hcnt : t.count = occCount t.entries + tombCount t.entries)
    (hlen : t.entries.length = t.capacity)
    (hi : i < t.capacity) (hk : (entryAt t.entries i).key = some k) :
    t.count ≠ 0 := by
  have hmem : entryAt t.entries i ∈ t.entries := entryAt_mem (by omega)
  have hocc : 0 < occCount t.entries := by
    unfold occCount
    rw [List.countP_pos_iff]
    exact ⟨_, hmem, by simp [hk]⟩
  omega

theorem hasKey_iff_pair {t : Table} (k : StrObj) :
    HasKey t k ↔ ∃ v, HasPair t k v := by
  constructor
  · rintro ⟨i, hi, hk⟩
    refine ⟨(entryAt t.entries i).value, i, hi, ?_⟩
    unfold keyAt at hk
    rw [← hk]
  · rintro ⟨v, i, hi, hpair⟩
    exact ⟨i, hi, by unfold keyAt; rw [hpair]⟩

theorem findStringTable_complete {t : Table} {data : List Char} {i : Nat}
    {k : StrObj}
    (hlen : t.entries.length = t.capacity)
    (hcnt : t.count = occCount t.entries + tombCount t.entries)
    (hchain : ChainInv t)
    (hi : i < t.capacity) (hk : (entryAt t.entries i).key = some k)
    (hdata : k.data = data) (hhash : k.hash = hashString data) :
    ∃ j k2, j < t.capacity ∧ (entryAt t.entries j).key = some k2 ∧
      k2.data = data ∧
      findStringTable t data (hashString data) = some k2 := by
  have hcap : 0 < t.capacity := by omega
  have hcount := count_ne_zero_of_key hcnt hlen hi hk
  have hidx : hashString data % t.capacity < t.capacity := Nat.mod_lt _ hcap
  have hstopi : isStopS t.entries data (hashString data) i = true := by
    unfold isStopS
    rw [hk]
    simp [hdata, hhash]
  have hex : ∃ m, m < t.capacity ∧
      isStopS t.entries data (hashString data)
        (probe t.capacity (hashString data % t.capacity) m) = true := by
    refine ⟨offsetOf t.capacity (hashString data % t.capacity) i,
      offsetOf_lt _ _ hcap, ?_⟩
    rw [probe_offsetOf _ hi]
    exact hstopi
  obtain ⟨m₀, hm₀, hmin, hstop₀, hres⟩ := findStringGo_spec t.entries t.capacity
    data (hashString data) t.capacity (hashString data % t.capacity) hidx hex
  set q := probe t.capacity (hashString data % t.capacity) m₀ with hqdef
  have hqlt : q < t.capacity := probe_lt _ _ _ hcap
  cases hkq : (entryAt t.entries q).key with
  | none =>
    -- the first stop cannot be an empty slot: it would sit strictly before
    -- slot i on i's probe chain, contradicting the chain invariant
    exfalso
    unfold isStopS at hstop₀
    rw [hkq] at hstop₀
    simp only [decide_eq_true_eq] at hstop₀
    have hsame : k.hash % t.capacity = hashString data % t.capacity := by rw [hhash]
    have hmlt : m₀ < offsetOf t.capacity (hashString data % t.capacity) i := by
      rcases Nat.lt_trichotomy m₀
        (offsetOf t.capacity (hashString data % t.capacity) i) with h | h | h
      · exact h
      · exfalso
        rw [hqdef, h, probe_offsetOf _ hi] at hkq
        rw [hkq] at hk
        simp at hk
      · exfalso
        have hcontra := hmin _ h
        rw [probe_offsetOf _ hi, hstopi] at hcontra
        simp at hcontra
    have hchainuse := hchain i k hi hk m₀ (by rw [hsame]; exact hmlt)
    rw [hsame] at hchainuse
    exact hchainuse ⟨hkq, hstop₀⟩
  | some k2 =>
    refine ⟨q, k2, hqlt, hkq, ?_, ?_⟩
    · unfold isStopS at hstop₀
      rw [hkq] at hstop₀
      simp only [decide_eq_true_eq] at hstop₀
      exact hstop₀.2.2
    · unfold findStringTable
      rw [if_neg hcount, hres, hkq]

/-! ### `putTable`: master lemmas -/

theorem putTable_fresh {t : Table} {key : StrObj} {v : Value}
    (hshape : TableShape t) (hchain : ChainInv t) (huniq : UniqueId t)
    (hno : NoId t key.id) :
    ∃ t', putTable t key v = (true, t') ∧
      TableShape t' ∧ ChainInv t' ∧ UniqueId t' ∧ t'.count ≠ 0 ∧
      (∀ k2 v2, HasPair t' k2 v2 ↔ (HasPair t k2 v2 ∨ (k2 = key ∧ v2 = v))) ∧
      ∃ p, p < t'.capacity ∧ entryAt t'.entries p = ⟨some key, v⟩ ∧
        ∀ j, j < offsetOf t'.capacity (key.hash % t'.capacity) p →
          ∃ k2, (entryAt t'.entries
              (probe t'.capacity (key.hash % t'.capacity) j)).key = some k2 ∧
            k2.id ≠ key.id := by
  obtain ⟨glen, gcap, gcnt, gload, gchain, guniq, gpairs, -⟩ :=
    putGrown_spec hshape hchain huniq
  have gno : NoId (putGrown t) key.id := by
    intro i k2 hi hk2
    have hpair : HasPair (putGrown t) k2 (entryAt (putGrown t).entries i).value :=
      ⟨i, hi, by rw [← hk2]⟩
    obtain ⟨a, ha, hpa⟩ := (gpairs _ _).mp hpair
    exact hno a k2 ha (by rw [hpa])
  have hemp : 0 < empCount (putGrown t).entries := by
    have hpart := counts_partition (putGrown t).entries
    omega
  obtain ⟨p, hp, hkeyp, hpre, hput⟩ :=
    @putInsert_fresh (putGrown t) key v gcap glen hemp gno
  have hplen : p < (putGrown t).entries.length := by omega
  have hocc2 := @occCount_set_some (putGrown t).entries p key v hplen hkeyp
  have hts := countP_set_add
    (fun e2 => e2.key.isNone && !(e2.value = Value.nil : Bool))
    (putGrown t).entries p ⟨some key, v⟩ hplen
  refine ⟨Table.mk
      (if (entryAt (putGrown t).entries p).value = Value.nil
       then (putGrown t).count + 1 else (putGrown t).count)
      (putGrown t).capacity
      ((putGrown t).entries.set p ⟨some key, v⟩),
    ?_, ⟨?_, ?_, ?_⟩, ?_, ?_, ?_, ?_, ?_⟩
  · unfold putTable
    exact hput
  · simpa using glen
  · -- count = occ + tomb on the updated array
    dsimp only
    by_cases hv : (entryAt (putGrown t).entries p).value = Value.nil
    · rw [if_pos hv]
      simp [hkeyp, hv] at hts
      unfold tombCount occCount at gcnt hocc2 ⊢
      omega
    · rw [if_neg hv]
      simp [hkeyp, hv] at hts
      unfold tombCount occCount at gcnt hocc2 ⊢
      omega
  · -- load factor
    dsimp only
    by_cases hv : (entryAt (putGrown t).entries p).value = Value.nil
    · rw [if_pos hv]
      omega
    · rw [if_neg hv]
      omega
  · exact chainInvL_insert gchain glen hp hpre
  · exact uniqueIdL_insert guniq glen hp gno
  · -- count ≠ 0
    dsimp only
    by_cases hv : (entryAt (putGrown t).entries p).value = Value.nil
    · rw [if_pos hv]
      omega
    · rw [if_neg hv]
      have htombpos : 0 < tombCount (putGrown t).entries := by
        unfold tombCount
        rw [List.countP_pos_iff]
        exact ⟨_, entryAt_mem hplen, by simp [hkeyp, hv]⟩
      omega
  · intro k2 v2
    exact (hasPairL_insert glen hp hkeyp k2 v2).trans
      (or_congr (gpairs k2 v2) Iff.rfl)
  · refine ⟨p, hp, entryAt_set_self _ hplen, ?_⟩
    dsimp only
    intro j hj
    have hoff : offsetOf (putGrown t).capacity (key.hash % (putGrown t).capacity) p
        < (putGrown t).capacity := offsetOf_lt _ _ gcap
    have hj2 : j < (putGrown t).capacity := by omega
    have hne : p ≠ probe (putGrown t).capacity (key.hash % (putGrown t).capacity) j := by
      intro he
      have heq : probe (putGrown t).capacity (key.hash % (putGrown t).capacity) j =
          probe (putGrown t).capacity (key.hash % (putGrown t).capacity)
            (offsetOf (putGrown t).capacity (key.hash % (putGrown t).capacity) p) := by
        rw [probe_offsetOf _ hp, ← he]
      have := probe_inj hj2 hoff heq
      omega
    rw [entryAt_set_ne _ hne]
    have hsome := hpre j hj
    cases hk2 : (entryAt (putGrown t).entries
        (probe (putGrown t).capacity (key.hash % (putGrown t).capacity) j)).key with
    | none => rw [hk2] at hsome; simp at hsome
    | some k2 =>
      exact ⟨k2, rfl, gno _ k2 (probe_lt _ _ _ gcap) hk2⟩

theorem putTable_present {t : Table} {key : StrObj} {v : Value}
    (hshape : TableShape t) (hchain : ChainInv t) (huniq : UniqueId t)
    (hstrict : StrictChainInv t) (hkey : HasKey t key) :
    ∃ t', putTable t key v = (false, t') ∧ getTable t' key = some v := by
  obtain ⟨glen, gcap, gcnt, gload, gchain, guniq, gpairs, gstrict⟩ :=
    putGrown_spec hshape hchain huniq
  have hkeyg : HasKey (putGrown t) key := by
    rw [hasKey_iff_pair] at hkey ⊢
    obtain ⟨v0, hpair⟩ := hkey
    exact ⟨v0, (gpairs key v0).mpr hpair⟩
  obtain ⟨q, hq, hkq⟩ := hkeyg
  have hkq2 : (entryAt (putGrown t).entries q).key = some key := hkq
  have hpre : ∀ j, j < offsetOf (putGrown t).capacity
      (key.hash % (putGrown t).capacity) q →
      ∃ k2, (entryAt (putGrown t).entries
          (probe (putGrown t).capacity (key.hash % (putGrown t).capacity) j)).key
        = some k2 ∧ k2.id ≠ key.id := by
    intro j hj
    have hsome := gstrict hstrict q key hq hkq j hj
    have hoff : offsetOf (putGrown t).capacity (key.hash % (putGrown t).capacity) q
        < (putGrown t).capacity := offsetOf_lt _ _ gcap
    have hj2 : j < (putGrown t).capacity := by omega
    cases hk2 : (entryAt (putGrown t).entries
        (probe (putGrown t).capacity (key.hash % (putGrown t).capacity) j)).key with
    | none => rw [hk2] at hsome; simp at hsome
    | some k2 =>
      refine ⟨k2, rfl, ?_⟩
      have hne : probe (putGrown t).capacity (key.hash % (putGrown t).capacity) j
          ≠ q := by
        intro he
        have heq : probe (putGrown t).capacity (key.hash % (putGrown t).capacity) j =
            probe (putGrown t).capacity (key.hash % (putGrown t).capacity)
              (offsetOf (putGrown t).capacity (key.hash % (putGrown t).capacity) q) := by
          rw [probe_offsetOf _ hq, ← he]
        have := probe_inj hj2 hoff heq
        omega
      exact guniq _ q k2 key (probe_lt _ _ _ gcap) hq hk2 hkq2 hne
  have hfind := findEntry_at_key gcap hq ⟨key, hkq2, rfl⟩ hpre
  have hput := @putInsert_present (putGrown t) key v q key hfind hkq2
  have hqlen : q < (putGrown t).entries.length := by omega
  refine ⟨Table.mk (putGrown t).count (putGrown t).capacity
      ((putGrown t).entries.set q ⟨some key, v⟩), ?_, ?_⟩
  · unfold putTable
    exact hput
  · have hkeyq2b : (entryAt ((putGrown t).entries.set q ⟨some key, v⟩) q).key
        = some key := by
      rw [entryAt_set_self _ hqlen]
    have hval : (entryAt ((putGrown t).entries.set q ⟨some key, v⟩) q).value = v := by
      rw [entryAt_set_self _ hqlen]
    have hcount2 : (Table.mk (putGrown t).count (putGrown t).capacity
        ((putGrown t).entries.set q ⟨some key, v⟩)).count ≠ 0 := by
      have hg := count_ne_zero_of_key gcnt glen hq hkq2
      exact hg
    have hget := @getTable_some_at (Table.mk (putGrown t).count
        (putGrown t).capacity ((putGrown t).entries.set q ⟨some key, v⟩))
      key q gcap hq hcount2 hkeyq2b ?_
    · rw [hget, hval]
    · intro j hj
      dsimp only at hj ⊢
      obtain ⟨k2, hk2, hk2id⟩ := hpre j hj
      have hoff : offsetOf (putGrown t).capacity (key.hash % (putGrown t).capacity) q
          < (putGrown t).capacity := offsetOf_lt _ _ gcap
      have hj2 : j < (putGrown t).capacity := by omega
      have hne : q ≠ probe (putGrown t).capacity
          (key.hash % (putGrown t).capacity) j := by
        intro he
        have heq : probe (putGrown t).capacity (key.hash % (putGrown t).capacity) j =
            probe (putGrown t).capacity (key.hash % (putGrown t).capacity)
              (offsetOf (putGrown t).capacity (key.hash % (putGrown t).capacity) q) := by
          rw [probe_offsetOf _ hq, ← he]
        have := probe_inj hj2 hoff heq
        omega
      refine ⟨k2, ?_, hk2id⟩
      rw [entryAt_set_ne _ hne]
      exact hk2

/-! ### `delTable` preserves well-formedness -/

theorem findEntryGo_lt {entries : List Entry} {cap : Nat} {key : StrObj} :
    ∀ fuel index, index < cap →
      ∀ r, findEntryGo entries cap key fuel index none = some r → r < cap := by
  intro fuel
  induction fuel with
  | zero =>
    intro index _ r h
    simp [findEntryGo] at h
  | succ fuel ih =>
    intro index hidx r h
    have hcap : 0 < cap := by omega
    cases hk : (entryAt entries index).key with
    | none =>
      simp only [findEntryGo, hk] at h
      by_cases hv : (entryAt entries index).value = Value.nil <;>
        simp [hv, Option.getD] at h <;> omega
    | some k =>
      simp only [findEntryGo, hk] at h
      by_cases hid : k.id = key.id
      · simp [hid] at h
        omega
      · rw [if_neg hid] at h
        exact ih _ (Nat.mod_lt _ hcap) r h

theorem chainInvL_tombstone {es : List Entry} {cap idx : Nat}
    (hchain : ChainInvL cap es) (hlen : es.length = cap) (hidx : idx < cap) :
    ChainInvL cap (es.set idx ⟨none, Value.bool true⟩) := by
  intro i k hi hki j hj
  have hxlen : idx < es.length := by omega
  by_cases hij : i = idx
  · rw [hij, entryAt_set_self _ hxlen] at hki
    simp at hki
  · rw [entryAt_set_ne _ (fun h => hij h.symm)] at hki
    have hold := hchain i k hi hki j hj
    by_cases hq : idx = probe cap (k.hash % cap) j
    · rw [← hq, entryAt_set_self _ hxlen]
      intro hempty
      simp [slotEmpty] at hempty
    · rw [entryAt_set_ne _ hq]
      exact hold

theorem delTable_wf {t : Table} {key : StrObj}
    (hshape : TableShape t) (hchain : ChainInv t) :
    TableShape (delTable t key).2 ∧ ChainInv (delTable t key).2 ∧
    (delTable t key).2.capacity = t.capacity ∧
    (∀ i k2, keyAt (delTable t key).2 i = some k2 → keyAt t i = some k2) := by
  obtain ⟨hlen, hcnt, hload⟩ := hshape
  unfold delTable
  by_cases hc : t.count = 0
  · rw [if_pos hc]
    exact ⟨⟨hlen, hcnt, hload⟩, hchain, rfl, fun i k2 h => h⟩
  · rw [if_neg hc]
    have hcap : 0 < t.capacity := by
      by_contra hcap0
      have hcap0 : t.capacity = 0 := by omega
      have : t.entries = [] := by
        have := hlen
        rw [hcap0] at this
        exact List.length_eq_zero.mp this
      unfold occCount tombCount at hcnt
      rw [this] at hcnt
      simp at hcnt
      omega
    cases hfind : findEntry t.entries t.capacity key with
    | none => exact ⟨⟨hlen, hcnt, hload⟩, hchain, rfl, fun i k2 h => h⟩
    | some idx =>
      dsimp only
      have hidx : idx < t.capacity :=
        findEntryGo_lt t.capacity (key.hash % t.capacity)
          (Nat.mod_lt _ hcap) idx hfind
      have hxlen : idx < t.entries.length := by omega
      cases hk0 : (entryAt t.entries idx).key with
      | none => exact ⟨⟨hlen, hcnt, hload⟩, hchain, rfl, fun i k2 h => h⟩
      | some k0 =>
        dsimp only
        refine ⟨⟨by simpa using hlen, ?_, by simpa using hload⟩, ?_, rfl, ?_⟩
        · -- count law
          have hocc := countP_set_add (fun e => e.key.isSome) t.entries idx
            ⟨none, Value.bool true⟩ hxlen
          have htmb := countP_set_add
            (fun e2 => e2.key.isNone && !(e2.value = Value.nil : Bool)) t.entries
            idx ⟨none, Value.bool true⟩ hxlen
          simp [hk0] at hocc htmb
          unfold occCount tombCount at hcnt ⊢
          dsimp only
          omega
        · exact chainInvL_tombstone hchain hlen hidx
        · intro i k2 h
          unfold keyAt at h ⊢
          by_cases hij : i = idx
          · rw [hij, entryAt_set_self _ hxlen] at h
            simp at h
          · rwa [entryAt_set_ne _ (fun hh => hij hh.symm)] at h

/-! ### String interning: hash-consing (claim C5) -/

theorem take_eq_copy (st : Interner) (data : List Char) :
    takeString st data = copyString st data := rfl

theorem findString_of_hasKey {st : Interner} {s : StrObj}
    (hwf : InternWF st) (hk : HasKey st.strings s) :
    findStringTable st.strings s.data (hashString s.data) = some s := by
  obtain ⟨⟨hlen, hcnt, hload⟩, hchain, hhashlaw, huniq, hdinj, hids⟩ := hwf
  obtain ⟨i, hi, hki⟩ := hk
  have hki2 : (entryAt st.strings.entries i).key = some s := hki
  have hhash : s.hash = hashString s.data := hhashlaw i s hi hki
  obtain ⟨j, k2, hj, hkj, hk2data, hres⟩ :=
    findStringTable_complete hlen hcnt hchain hi hki2 rfl hhash
  have hk2 : k2 = s := hdinj k2 s ⟨j, hj, hkj⟩ ⟨i, hi, hki⟩ hk2data
  rw [hres, hk2]

theorem copyString_wf {st : Interner} {data : List Char} (hwf : InternWF st) :
    ∃ s st₁, copyString st data = (s, st₁) ∧ s.data = data ∧
      InternWF st₁ ∧ HasKey st₁.strings s := by
  obtain ⟨⟨hlen, hcnt, hload⟩, hchain, hhashlaw, huniq, hdinj, hids⟩ := hwf
  have hwfst : InternWF st := ⟨⟨hlen, hcnt, hload⟩, hchain, hhashlaw, huniq, hdinj, hids⟩
  cases hfind : findStringTable st.strings data (hashString data) with
  | some interned =>
    have hcz : st.strings.count ≠ 0 := by
      intro hc
      unfold findStringTable at hfind
      rw [if_pos hc] at hfind
      exact absurd hfind (by simp)
    have hcap : 0 < st.strings.capacity := by
      have hpart := counts_partition st.strings.entries
      omega
    have hgo : findStringGo st.strings.entries st.strings.capacity data
        (hashString data) st.strings.capacity
        (hashString data % st.strings.capacity) = some interned := by
      unfold findStringTable at hfind
      rwa [if_neg hcz] at hfind
    obtain ⟨i, hi, hki, hdata, hhash⟩ :=
      findStringGo_sound _ _ _ (Nat.mod_lt _ hcap) hgo
    exact ⟨interned, st, by simp only [copyString, hfind], hdata, hwfst,
      ⟨i, hi, hki⟩⟩
  | none =>
    have hno : NoId st.strings st.nextId := fun i k hi hk =>
      Nat.ne_of_lt (hids i k hi hk)
    obtain ⟨t2, hput, hshape2, hchain2, huniq2, hcnt2, hpairs, p, hp, hentp, -⟩ :=
      @putTable_fresh st.strings ⟨st.nextId, data, hashString data⟩
        Value.nil ⟨hlen, hcnt, hload⟩ hchain huniq hno
    have hkeyp : keyAt t2 p = some ⟨st.nextId, data, hashString data⟩ := by
      unfold keyAt
      rw [hentp]
    have hkeys : ∀ k, HasKey t2 k →
        HasKey st.strings k ∨ k = ⟨st.nextId, data, hashString data⟩ := by
      intro k hk
      obtain ⟨v, hpair⟩ := (hasKey_iff_pair k).mp hk
      rcases (hpairs k v).mp hpair with hold | ⟨hke, -⟩
      · exact Or.inl ((hasKey_iff_pair k).mpr ⟨v, hold⟩)
      · exact Or.inr hke
    refine ⟨⟨st.nextId, data, hashString data⟩, ⟨t2, st.nextId + 1⟩, ?_, rfl,
      ⟨hshape2, hchain2, ?_, huniq2, ?_, ?_⟩, ⟨p, hp, hkeyp⟩⟩
    · simp only [copyString, hfind, allocateString, hput]
    · -- HashLaw
      intro i k hi hk
      rcases hkeys k ⟨i, hi, hk⟩ with hold | hnew
      · obtain ⟨i0, hi0, hki0⟩ := hold
        exact hhashlaw i0 k hi0 hki0
      · rw [hnew]
    · -- DataInjective
      intro k1 k2 h1 h2 hdata12
      rcases hkeys k1 h1 with hold1 | hnew1 <;> rcases hkeys k2 h2 with hold2 | hnew2
      · exact hdinj k1 k2 hold1 hold2 hdata12
      · exfalso
        have hf := findString_of_hasKey hwfst hold1
        have hd1 : k1.data = data := by rw [hdata12, hnew2]
        rw [hd1] at hf
        rw [hf] at hfind
        exact absurd hfind (by simp)
      · exfalso
        have hf := findString_of_hasKey hwfst hold2
        have hd2 : k2.data = data := by rw [← hdata12, hnew1]
        rw [hd2] at hf
        rw [hf] at hfind
        exact absurd hfind (by simp)
      · rw [hnew1, hnew2]
    · -- identities stay below the bumped allocator counter
      dsimp only
      intro i k hi hk
      rcases hkeys k ⟨i, hi, hk⟩ with hold | hnew
      · obtain ⟨i0, hi0, hki0⟩ := hold
        exact Nat.lt_succ_of_lt (hids i0 k hi0 hki0)
      · rw [hnew]
        exact Nat.lt_succ_self _

theorem internWF_init : InternWF initInterner := by
  refine ⟨⟨rfl, rfl, Nat.le_refl 0⟩, ?_, ?_, ?_, ?_, ?_⟩
  · intro i k hi
    exact absurd hi (Nat.not_lt_zero i)
  · intro i k hi
    exact absurd hi (Nat.not_lt_zero i)
  · intro i j ki kj hi
    exact absurd hi (Nat.not_lt_zero i)
  · intro k1 k2 h1
    obtain ⟨i, hi, -⟩ := h1
    exact absurd hi (Nat.not_lt_zero i)
  · intro i k hi
    exact absurd hi (Nat.not_lt_zero i)

/-- **C5** (confirmed): string interning is hash-consing.  From any
well-formed interner state, interning a byte sequence yields a string
object carrying exactly those bytes; re-interning the same bytes — via
`copyString` or `takeString`, which agree on every input — returns the
*identical* object (pointer equality) and leaves the interner unchanged;
the resulting state is again well-formed, and in it identity equality of
interned string objects coincides with textual equality of their
contents, so the table never simultaneously holds two distinct string
objects with equal content. -/
theorem interning_is_hash_consing {st : Interner} {data : List Char}
    (hwf : InternWF st) :
    ∃ s st₁, copyString st data = (s, st₁) ∧
      takeString st data = (s, st₁) ∧ s.data = data ∧
      copyString st₁ data = (s, st₁) ∧ takeString st₁ data = (s, st₁) ∧
      InternWF st₁ ∧
      ∀ k1 k2, HasKey st₁.strings k1 → HasKey st₁.strings k2 →
        (k1 = k2 ↔ k1.data = k2.data) := by
  obtain ⟨s, st₁, hcopy, hdata, hwf₁, hkey⟩ := copyString_wf hwf
  have hfind₁ : findStringTable st₁.strings data (hashString data) = some s := by
    have h := findString_of_hasKey hwf₁ hkey
    rwa [hdata] at h
  have hcopy₁ : copyString st₁ data = (s, st₁) := by
    simp only [copyString, hfind₁]
  exact ⟨s, st₁, hcopy, hcopy, hdata, hcopy₁, hcopy₁, hwf₁,
    fun k1 k2 h1 h2 =>
      ⟨fun he => by rw [he],
       fun he => hwf₁.2.2.2.2.1 k1 k2 h1 h2 he⟩⟩

/-- Closed witness for the C5 theorem: the well-formed initial interner
with the concrete byte sequence `ab`. -/
theorem interning_is_hash_consing_witness :
    InternWF initInterner ∧
    ∃ s st₁, copyString initInterner ('a' :: 'b' :: []) = (s, st₁) ∧
      takeString initInterner ('a' :: 'b' :: []) = (s, st₁) ∧
      s.data = 'a' :: 'b' :: [] ∧
      copyString st₁ ('a' :: 'b' :: []) = (s, st₁) ∧
      takeString st₁ ('a' :: 'b' :: []) = (s, st₁) ∧
      InternWF st₁ ∧
      ∀ k1 k2, HasKey st₁.strings k1 → HasKey st₁.strings k2 →
        (k1 = k2 ↔ k1.data = k2.data) :=
  ⟨internWF_init, interning_is_hash_consing internWF_init⟩

/-! ### `OP_CALL` on a non-callable value (claim C6) -/

/-- **C6** (counterexample): calling the number `7` raises the runtime
error message `Invalid call target.` — not the message `Can only call
functions and classes.` the specification states. -/
theorem opcall_message_differs_from_spec :
    runOpCall c6Vm 0 =
      some (some ("Invalid call target."),
        some InterpretResult.INTERPRET_RUNTIME_ERROR, c6Vm) ∧
    ("Invalid call target." : String) ≠
      ("Can only call functions and classes." : String) :=
  ⟨rfl, by decide⟩

/-- **C6** (corrected): for every `OP_CALL` whose callee is neither a
closure nor a native function — a number, `nil`, a boolean, a string, or
any other non-callable object — the VM raises a runtime error whose
message is exactly `Invalid call target.` (the specification instead
states `Can only call functions and classes.`), interpretation returns
`INTERPRET_RUNTIME_ERROR`, and the state is unchanged. -/
theorem opcall_noncallable_is_runtime_error {vm : VmState} {argCount : Nat}
    (h : ∀ id, peekVm vm argCount = Value.object id →
        ∃ p, heapObj vm.heapData id = some p ∧
          (∀ f u, p ≠ ObjPayload.OBJ_CLOSURE f u) ∧
          (∀ f, p ≠ ObjPayload.OBJ_NATIVE f)) :
    runOpCall vm argCount =
      some (some ("Invalid call target."),
        some InterpretResult.INTERPRET_RUNTIME_ERROR, vm) := by
  unfold runOpCall callValue
  cases hpeek : peekVm vm argCount with
  | nil => rfl
  | bool b => rfl
  | number n => rfl
  | object id =>
    obtain ⟨p, hp, hncl, hnnat⟩ := h id hpeek
    dsimp only
    rw [hp]
    cases p with
    | OBJ_BOUND_METHOD r m => rfl
    | OBJ_CLASS n m => rfl
    | OBJ_CLOSURE f u => exact absurd rfl (hncl f u)
    | OBJ_FUNCTION a n c => rfl
    | OBJ_INSTANCE k f => rfl
    | OBJ_NATIVE f => exact absurd rfl (hnnat f)
    | OBJ_STRING str => rfl
    | OBJ_UPVALUE c => rfl

/-- Closed witness for the C6 theorem: the concrete VM whose callee is
the number `7`. -/
theorem opcall_noncallable_is_runtime_error_witness :
    runOpCall c6Vm 0 =
      some (some ("Invalid call target."),
        some InterpretResult.INTERPRET_RUNTIME_ERROR, c6Vm) :=
  opcall_noncallable_is_runtime_error (fun _ h => nomatch h)

/-! ### `OP_SET_GLOBAL` (claim C7) -/

theorem put_fresh_then_delete_lookup_none {t : Table} {key : StrObj} {v : Value}
    (hshape : TableShape t) (hchain : ChainInv t) (huniq : UniqueId t)
    (hno : NoId t key.id) :
    ∃ t2, putTable t key v = (true, t2) ∧
      getTable (delTable t2 key).2 key = none := by
  obtain ⟨t2, hput, hshape2, hchain2, huniq2, hcnt2, hpairs, p, hp, hentp, hpre⟩ :=
    putTable_fresh hshape hchain huniq hno
  have hcap2 : 0 < t2.capacity := by omega
  have hkeyp : (entryAt t2.entries p).key = some key := by rw [hentp]
  have hfind : findEntry t2.entries t2.capacity key = some p :=
    findEntry_at_key hcap2 hp ⟨key, hkeyp, rfl⟩ hpre
  have hdel := delTable_at hcnt2 hfind hkeyp
  have hlen2 : t2.entries.length = t2.capacity := hshape2.1
  have hplen : p < t2.entries.length := by omega
  refine ⟨t2, hput, ?_⟩
  rw [hdel]
  dsimp only
  apply @getTable_none_at
    (Table.mk t2.count t2.capacity
      (t2.entries.set p ⟨none, Value.bool true⟩)) key p hcap2 hp ?_ ?_
  · show (entryAt (t2.entries.set p ⟨none, Value.bool true⟩) p).key = none
    rw [entryAt_set_self _ hplen]
  · intro j hj
    dsimp only at hj ⊢
    have hoff : offsetOf t2.capacity (key.hash % t2.capacity) p < t2.capacity :=
      offsetOf_lt _ _ hcap2
    have hj2 : j < t2.capacity := by omega
    have hne : p ≠ probe t2.capacity (key.hash % t2.capacity) j := by
      intro he
      have heq : probe t2.capacity (key.hash % t2.capacity) j =
          probe t2.capacity (key.hash % t2.capacity)
            (offsetOf t2.capacity (key.hash % t2.capacity) p) := by
        rw [probe_offsetOf _ hp, ← he]
      have := probe_inj hj2 hoff heq
      omega
    obtain ⟨k2, hk2, hid⟩ := hpre j hj
    exact ⟨k2, by rw [entryAt_set_ne _ hne]; exact hk2, hid⟩

/-- **C7** (confirmed): executing `OP_SET_GLOBAL` on a name not bound in
the globals table (no entry carries its identity) raises the runtime
error `Undefined variable '<name>'.`, returns
`INTERPRET_RUNTIME_ERROR`, and is atomic: the entry `putTable` just
created is deleted again, so a lookup of the name still fails; the stack
is untouched.  On a bound name the value `peek(0)` overwrites the
binding, no error arises, execution continues, and the stack is again
untouched (net stack effect zero, the assigned value stays on top).
The bound case assumes the strict probe-chain invariant, which the
globals table maintains: its only deletions immediately follow the
corresponding insertion, and rehashing drops tombstones. -/
theorem setGlobal_undefined_and_assign {vm : VmState} {name : StrObj}
    (hshape : TableShape vm.globals) (hchain : ChainInv vm.globals)
    (huniq : UniqueId vm.globals) :
    (NoId vm.globals name.id →
      ∃ vm2, runSetGlobal vm name =
          (some ("Undefined variable '" ++ String.mk name.data ++ "'."),
           some InterpretResult.INTERPRET_RUNTIME_ERROR, vm2) ∧
        getTable vm2.globals name = none ∧
        vm2.stack = vm.stack) ∧
    (StrictChainInv vm.globals → HasKey vm.globals name →
      ∃ vm2, runSetGlobal vm name = (none, none, vm2) ∧
        getTable vm2.globals name = some (peekVm vm 0) ∧
        vm2.stack = vm.stack) := by
  constructor
  · intro hno
    obtain ⟨t2, hput, hget⟩ :=
      @put_fresh_then_delete_lookup_none vm.globals name (peekVm vm 0)
        hshape hchain huniq hno
    refine ⟨{ vm with globals := (delTable t2 name).2 }, ?_, hget, rfl⟩
    unfold runSetGlobal
    rw [hput]
  · intro hstrict hkey
    obtain ⟨t2, hput, hget⟩ :=
      @putTable_present vm.globals name (peekVm vm 0) hshape hchain huniq
        hstrict hkey
    refine ⟨{ vm with globals := t2 }, ?_, hget, rfl⟩
    unfold runSetGlobal
    rw [hput]

/-- Closed witness for the C7 theorem: the VM with empty globals and the
concrete name `k1`; the unbound branch applies. -/
theorem setGlobal_undefined_and_assign_witness :
    (NoId c6Vm.globals c4k1.id →
      ∃ vm2, runSetGlobal c6Vm c4k1 =
          (some ("Undefined variable '" ++ String.mk c4k1.data ++ "'."),
           some InterpretResult.INTERPRET_RUNTIME_ERROR, vm2) ∧
        getTable vm2.globals c4k1 = none ∧
        vm2.stack = c6Vm.stack) ∧
    (StrictChainInv c6Vm.globals → HasKey c6Vm.globals c4k1 →
      ∃ vm2, runSetGlobal c6Vm c4k1 = (none, none, vm2) ∧
        getTable vm2.globals c4k1 = some (peekVm c6Vm 0) ∧
        vm2.stack = c6Vm.stack) :=
  setGlobal_undefined_and_assign internWF_init.1 internWF_init.2.1
    internWF_init.2.2.2.1

/-! ### The driver: REPL resilience and file-mode exit codes (claim C10) -/

/-- **C10** (confirmed): the REPL is error-resilient.  In REPL mode
(`argc == 1`) every input line is interpreted — the result of each
interpretation is discarded, the loop continues to the next prompt until
end of input — and the process exits `EXIT_SUCCESS` (0), never 65 or 70,
whatever errors interpretation produced.  Only file mode maps a compile
error to exit code 65 (`EX_DATAERR`) and a runtime error to 70
(`EX_SOFTWARE`), exiting 0 otherwise. -/
theorem repl_resilient_file_mode_exit_codes
    (interp : String → InterpretResult) (readF : String → String)
    (lines : List String) (path : String) :
    mainClox interp readF [] lines = (lines.map interp, 0) ∧
    (mainClox interp readF [] lines).2 ≠ 65 ∧
    (mainClox interp readF [] lines).2 ≠ 70 ∧
    (interp (readF path) = InterpretResult.INTERPRET_COMPILE_ERROR →
      (mainClox interp readF [path] lines).2 = 65) ∧
    (interp (readF path) = InterpretResult.INTERPRET_RUNTIME_ERROR →
      (mainClox interp readF [path] lines).2 = 70) ∧
    (interp (readF path) = InterpretResult.INTERPRET_OK →
      (mainClox interp readF [path] lines).2 = 0) := by
  have hsess : ∀ ls : List String, replSession interp ls = ls.map interp := by
    intro ls
    induction ls with
    | nil => rfl
    | cons l rest ih => simp [replSession, ih]
  refine ⟨?_, ?_, ?_, ?_, ?_, ?_⟩
  · show (replSession interp lines, 0) = (lines.map interp, 0)
    rw [hsess]
  · show (0 : Nat) ≠ 65
    decide
  · show (0 : Nat) ≠ 70
    decide
  · intro h
    show (match interp (readF path) with
      | InterpretResult.INTERPRET_COMPILE_ERROR => 65
      | InterpretResult.INTERPRET_RUNTIME_ERROR => 70
      | InterpretResult.INTERPRET_OK => 0) = 65
    rw [h]
  · intro h
    show (match interp (readF path) with
      | InterpretResult.INTERPRET_COMPILE_ERROR => 65
      | InterpretResult.INTERPRET_RUNTIME_ERROR => 70
      | InterpretResult.INTERPRET_OK => 0) = 70
    rw [h]
  · intro h
    show (match interp (readF path) with
      | InterpretResult.INTERPRET_COMPILE_ERROR => 65
      | InterpretResult.INTERPRET_RUNTIME_ERROR => 70
      | InterpretResult.INTERPRET_OK => 0) = 0
    rw [h]

/-! ### The collector: marking lemmas (claim C9) -/

theorem markObject_mono {vm : VmState} {o : Option Nat} {x : Nat}
    (h : x ∈ vm.marked) : x ∈ (markObject vm o).marked := by
  unfold markObject
  cases o with
  | none => exact h
  | some id =>
    dsimp only
    by_cases hc : vm.marked.contains id = true
    · rw [if_pos hc]
      exact h
    · rw [if_neg hc]
      exact List.mem_cons_of_mem _ h

theorem markObject_gray_mono {vm : VmState} {o : Option Nat} {x : Nat}
    (h : x ∈ vm.grayStack) : x ∈ (markObject vm o).grayStack := by
  unfold markObject
  cases o with
  | none => exact h
  | some id =>
    dsimp only
    by_cases hc : vm.marked.contains id = true
    · rw [if_pos hc]
      exact h
    · rw [if_neg hc]
      exact List.mem_cons_of_mem _ h

theorem markObject_heap (vm : VmState) (o : Option Nat) :
    (markObject vm o).heapData = vm.heapData ∧
    (markObject vm o).objects = vm.objects ∧
    (markObject vm o).compilerFunctions = vm.compilerFunctions := by
  unfold markObject
  cases o with
  | none => exact ⟨rfl, rfl, rfl⟩
  | some id =>
    dsimp only
    by_cases hc : vm.marked.contains id = true
    · rw [if_pos hc]
      exact ⟨rfl, rfl, rfl⟩
    · rw [if_neg hc]
      exact ⟨rfl, rfl, rfl⟩

theorem markObject_marks (vm : VmState) (id : Nat) :
    id ∈ (markObject vm (some id)).marked := by
  unfold markObject
  dsimp only
  by_cases hc : vm.marked.contains id = true
  · rw [if_pos hc]
    exact List.elem_iff.mp hc
  · rw [if_neg hc]
    exact List.mem_cons_self _ _

theorem markObject_grayinv {vm : VmState} {o : Option Nat}
    (hinv : GrayInv vm) : GrayInv (markObject vm o) := by
  unfold markObject
  cases o with
  | none => exact hinv
  | some id =>
    dsimp only
    by_cases hc : vm.marked.contains id = true
    · rw [if_pos hc]
      exact hinv
    · rw [if_neg hc]
      intro x hx
      dsimp only at hx ⊢
      rcases List.mem_cons.mp hx with hx | hx
      · subst hx
        exact Or.inl (List.mem_cons_self _ _)
      · rcases hinv x hx with hg | hr
        · exact Or.inl (List.mem_cons_of_mem _ hg)
        · refine Or.inr ?_
          intro p id2 hp href
          exact List.mem_cons_of_mem _ (hr p id2 hp href)

theorem markValue_eq (vm : VmState) (v : Value) :
    markValue vm v = markObject vm (valueRef v) := by
  cases v <;> rfl

theorem markValue_mono {vm : VmState} {v : Value} {x : Nat}
    (h : x ∈ vm.marked) : x ∈ (markValue vm v).marked := by
  rw [markValue_eq]
  exact markObject_mono h

theorem markValue_gray_mono {vm : VmState} {v : Value} {x : Nat}
    (h : x ∈ vm.grayStack) : x ∈ (markValue vm v).grayStack := by
  rw [markValue_eq]
  exact markObject_gray_mono h

theorem markValue_heap (vm : VmState) (v : Value) :
    (markValue vm v).heapData = vm.heapData ∧
    (markValue vm v).objects = vm.objects ∧
    (markValue vm v).compilerFunctions = vm.compilerFunctions := by
  rw [markValue_eq]
  exact markObject_heap vm _

theorem markValue_marks {vm : VmState} {v : Value} {id : Nat}
    (h : valueRef v = some id) : id ∈ (markValue vm v).marked := by
  rw [markValue_eq, h]
  exact markObject_marks vm id

theorem markValue_grayinv {vm : VmState} {v : Value}
    (hinv : GrayInv vm) : GrayInv (markValue vm v) := by
  rw [markValue_eq]
  exact markObject_grayinv hinv

theorem foldl_mark_spec {α : Type} (f : VmState → α → VmState)
    (hmono : ∀ vm a x, x ∈ vm.marked → x ∈ (f vm a).marked)
    (hgray : ∀ vm a x, x ∈ vm.grayStack → x ∈ (f vm a).grayStack)
    (hheap : ∀ vm a, (f vm a).heapData = vm.heapData ∧
      (f vm a).objects = vm.objects ∧
      (f vm a).compilerFunctions = vm.compilerFunctions)
    (hinv : ∀ vm a, GrayInv vm → GrayInv (f vm a)) :
    ∀ (l : List α) (vm : VmState),
      (∀ x, x ∈ vm.marked → x ∈ (l.foldl f vm).marked) ∧
      (∀ x, x ∈ vm.grayStack → x ∈ (l.foldl f vm).grayStack) ∧
      (l.foldl f vm).heapData = vm.heapData ∧
      (l.foldl f vm).objects = vm.objects ∧
      (l.foldl f vm).compilerFunctions = vm.compilerFunctions ∧
      (GrayInv vm → GrayInv (l.foldl f vm)) := by
  intro l
  induction l with
  | nil =>
    intro vm
    exact ⟨fun x h => h, fun x h => h, rfl, rfl, rfl, fun h => h⟩
  | cons a rest ih =>
    intro vm
    simp only [List.foldl_cons]
    obtain ⟨m1, g1, h1, o1, c1, i1⟩ := ih (f vm a)
    exact ⟨fun x h => m1 x (hmono vm a x h),
           fun x h => g1 x (hgray vm a x h),
           h1.trans (hheap vm a).1,
           o1.trans (hheap vm a).2.1,
           c1.trans (hheap vm a).2.2,
           fun h => i1 (hinv vm a h)⟩

theorem foldl_mark_mono {α : Type} (f : VmState → α → VmState)
    (hmono : ∀ vm a x, x ∈ vm.marked → x ∈ (f vm a).marked) :
    ∀ (l : List α) (vm : VmState) (x : Nat),
      x ∈ vm.marked → x ∈ (l.foldl f vm).marked := by
  intro l
  induction l with
  | nil =>
    intro vm x h
    exact h
  | cons a rest ih =>
    intro vm x h
    simp only [List.foldl_cons]
    exact ih (f vm a) x (hmono vm a x h)

theorem foldl_mark_elem {α : Type} (f : VmState → α → VmState)
    (ref : α → Option Nat)
    (hmono : ∀ vm a x, x ∈ vm.marked → x ∈ (f vm a).marked)
    (hmark : ∀ vm a id, ref a = some id → id ∈ (f vm a).marked) :
    ∀ (l : List α) (vm : VmState) (a : α) (id : Nat),
      a ∈ l → ref a = some id → id ∈ (l.foldl f vm).marked := by
  intro l
  induction l with
  | nil =>
    intro vm a id ha
    exact absurd ha (List.not_mem_nil a)
  | cons b rest ih =>
    intro vm a id ha href
    simp only [List.foldl_cons]
    rcases List.mem_cons.mp ha with h | h
    · subst h
      exact foldl_mark_mono f hmono rest (f vm a) id (hmark vm a id href)
    · exact ih (f vm b) a id h href

theorem mem_tableRefsL (es : List Entry) (o : Option Nat) :
    o ∈ es.foldr (fun e acc => e.key.map StrObj.id :: valueRef e.value :: acc)
        [] ↔
      ∃ e, e ∈ es ∧ (o = e.key.map StrObj.id ∨ o = valueRef e.value) := by
  induction es with
  | nil => simp
  | cons e rest ih =>
    simp only [List.foldr_cons, List.mem_cons, ih]
    constructor
    · rintro (h | h | ⟨e2, he2, hc⟩)
      · exact ⟨e, Or.inl rfl, Or.inl h⟩
      · exact ⟨e, Or.inl rfl, Or.inr h⟩
      · exact ⟨e2, Or.inr he2, hc⟩
    · rintro ⟨e2, he2 | he2, hc⟩
      · subst he2
        rcases hc with hc | hc
        · exact Or.inl hc
        · exact Or.inr (Or.inl hc)
      · exact Or.inr (Or.inr ⟨e2, he2, hc⟩)

theorem markForGCTable_spec (vm : VmState) (t : Table) :
    (∀ x, x ∈ vm.marked → x ∈ (markForGCTable vm t).marked) ∧
    (∀ x, x ∈ vm.grayStack → x ∈ (markForGCTable vm t).grayStack) ∧
    (markForGCTable vm t).heapData = vm.heapData ∧
    (markForGCTable vm t).objects = vm.objects ∧
    (markForGCTable vm t).compilerFunctions = vm.compilerFunctions ∧
    (GrayInv vm → GrayInv (markForGCTable vm t)) := by
  unfold markForGCTable
  exact foldl_mark_spec _
    (fun vm2 e x hx => markValue_mono (markObject_mono hx))
    (fun vm2 e x hx => markValue_gray_mono (markObject_gray_mono hx))
    (fun vm2 e => ⟨(markValue_heap _ _).1.trans (markObject_heap _ _).1,
      (markValue_heap _ _).2.1.trans (markObject_heap _ _).2.1,
      (markValue_heap _ _).2.2.trans (markObject_heap _ _).2.2⟩)
    (fun vm2 e h => markValue_grayinv (markObject_grayinv h))
    t.entries vm

theorem markForGCTable_marks {vm : VmState} {t : Table} {id : Nat}
    (ho : some id ∈ tableRefs t) :
    id ∈ (markForGCTable vm t).marked := by
  obtain ⟨e, he, hcase⟩ := (mem_tableRefsL t.entries (some id)).mp ho
  unfold markForGCTable
  rcases hcase with hkey | hval
  · exact foldl_mark_elem _ (fun e2 => e2.key.map StrObj.id)
      (fun vm2 e2 x hx => markValue_mono (markObject_mono hx))
      (fun vm2 e2 id2 h2 =>
        markValue_mono (by
          have h3 : e2.key.map StrObj.id = some id2 := h2
          rw [h3]
          exact markObject_marks vm2 id2))
      t.entries vm e id he hkey.symm
  · exact foldl_mark_elem _ (fun e2 => valueRef e2.value)
      (fun vm2 e2 x hx => markValue_mono (markObject_mono hx))
      (fun vm2 e2 id2 h2 => markValue_marks h2)
      t.entries vm e id he hval.symm

theorem foldl_markValue_spec (vm : VmState) (vs : List Value) :
    (∀ x, x ∈ vm.marked → x ∈ (vs.foldl markValue vm).marked) ∧
    (∀ x, x ∈ vm.grayStack → x ∈ (vs.foldl markValue vm).grayStack) ∧
    (vs.foldl markValue vm).heapData = vm.heapData ∧
    (vs.foldl markValue vm).objects = vm.objects ∧
    (vs.foldl markValue vm).compilerFunctions = vm.compilerFunctions ∧
    (GrayInv vm → GrayInv (vs.foldl markValue vm)) :=
  foldl_mark_spec markValue (fun _ _ _ hx => markValue_mono hx)
    (fun _ _ _ hx => markValue_gray_mono hx)
    (fun vm2 v => markValue_heap vm2 v)
    (fun _ _ h => markValue_grayinv h) vs vm

theorem foldl_markValue_marks {vm : VmState} {vs : List Value} {v : Value}
    {id : Nat} (hv : v ∈ vs) (h : valueRef v = some id) :
    id ∈ (vs.foldl markValue vm).marked :=
  foldl_mark_elem markValue valueRef (fun _ _ _ hx => markValue_mono hx)
    (fun _ _ _ h2 => markValue_marks h2) vs vm v id hv h

theorem foldl_markSome_spec (vm : VmState) (l : List Nat) :
    (∀ x, x ∈ vm.marked →
      x ∈ (l.foldl (fun a c => markObject a (some c)) vm).marked) ∧
    (∀ x, x ∈ vm.grayStack →
      x ∈ (l.foldl (fun a c => markObject a (some c)) vm).grayStack) ∧
    (l.foldl (fun a c => markObject a (some c)) vm).heapData = vm.heapData ∧
    (l.foldl (fun a c => markObject a (some c)) vm).objects = vm.objects ∧
    (l.foldl (fun a c => markObject a (some c)) vm).compilerFunctions
      = vm.compilerFunctions ∧
    (GrayInv vm → GrayInv (l.foldl (fun a c => markObject a (some c)) vm)) :=
  foldl_mark_spec _ (fun _ _ _ hx => markObject_mono hx)
    (fun _ _ _ hx => markObject_gray_mono hx)
    (fun vm2 c => markObject_heap vm2 (some c))
    (fun _ _ h => markObject_grayinv h) l vm

theorem foldl_markSome_marks {vm : VmState} {l : List Nat} {id : Nat}
    (h : id ∈ l) :
    id ∈ (l.foldl (fun a c => markObject a (some c)) vm).marked :=
  foldl_mark_elem _ some (fun _ _ _ hx => markObject_mono hx)
    (fun vm2 c id2 h2 => by
      rw [← Option.some_inj.mp h2]
      exact markObject_marks vm2 c)
    l vm id id h rfl

theorem markRoots_spec (vm : VmState) :
    (∀ x, x ∈ vm.marked → x ∈ (markRoots vm).marked) ∧
    (markRoots vm).heapData = vm.heapData ∧
    (markRoots vm).objects = vm.objects ∧
    (GrayInv vm → GrayInv (markRoots vm)) ∧
    (∀ id, some id ∈ rootIds vm → id ∈ (markRoots vm).marked) := by
  unfold markRoots
  dsimp only
  obtain ⟨mA, gA, hA, oA, cA, iA⟩ := foldl_markValue_spec vm vm.stack
  set vmA := vm.stack.foldl markValue vm with hvmA
  obtain ⟨mB, gB, hB, oB, cB, iB⟩ := foldl_markSome_spec vmA vm.frames
  set vmB := vm.frames.foldl (fun a c => markObject a (some c)) vmA with hvmB
  obtain ⟨mC, gC, hC, oC, cC, iC⟩ := foldl_markSome_spec vmB vm.openUpvalues
  set vmC := vm.openUpvalues.foldl (fun a u => markObject a (some u)) vmB
    with hvmC
  obtain ⟨mD, gD, hD, oD, cD, iD⟩ := markForGCTable_spec vmC vm.globals
  set vmD := markForGCTable vmC vm.globals with hvmD
  obtain ⟨mE, gE, hE, oE, cE, iE⟩ := foldl_markSome_spec vmD vm.compilerFunctions
  have hcomp : vmD.compilerFunctions = vm.compilerFunctions := by
    rw [cD, cC, cB, cA]
  have hEdef : markCompilerRoots vmD
      = vm.compilerFunctions.foldl (fun a c => markObject a (some c)) vmD := by
    unfold markCompilerRoots
    rw [hcomp]
  set vmE := markCompilerRoots vmD with hvmE
  have hFheap := markObject_heap vmE vm.initString
  refine ⟨?_, ?_, ?_, ?_, ?_⟩
  · intro x hx
    refine markObject_mono ?_
    rw [hEdef]
    exact mE x (mD x (mC x (mB x (mA x hx))))
  · rw [hFheap.1, hEdef, hE, hD, hC, hB, hA]
  · rw [hFheap.2.1, hEdef, oE, oD, oC, oB, oA]
  · intro hinv
    refine markObject_grayinv ?_
    rw [hEdef]
    exact iE (iD (iC (iB (iA hinv))))
  · intro id hid
    unfold rootIds at hid
    rw [List.mem_append] at hid
    rcases hid with hid | hid
    · -- everything except initString
      rw [List.mem_append] at hid
      rcases hid with hid | hid
      · rw [List.mem_append] at hid
        rcases hid with hid | hid
        · rw [List.mem_append] at hid
          rcases hid with hid | hid
          · rw [List.mem_append] at hid
            rcases hid with hid | hid
            · -- stack values
              obtain ⟨v, hv, hvid⟩ := List.mem_map.mp hid
              refine markObject_mono ?_
              rw [hEdef]
              exact mE id (mD id (mC id (mB id
                (foldl_markValue_marks hv hvid))))
            · -- frame closures
              obtain ⟨c, hc, hcid⟩ := List.mem_map.mp hid
              have hc2 : id ∈ vm.frames := by
                rw [← Option.some_inj.mp hcid]
                exact hc
              refine markObject_mono ?_
              rw [hEdef]
              exact mE id (mD id (mC id (foldl_markSome_marks hc2)))
          · -- open upvalues
            obtain ⟨u, hu, huid⟩ := List.mem_map.mp hid
            have hu2 : id ∈ vm.openUpvalues := by
              rw [← Option.some_inj.mp huid]
              exact hu
            refine markObject_mono ?_
            rw [hEdef]
            exact mE id (mD id (foldl_markSome_marks hu2))
        · -- globals table
          refine markObject_mono ?_
          rw [hEdef]
          exact mE id (markForGCTable_marks hid)
      · -- compiler chain
        obtain ⟨c, hc, hcid⟩ := List.mem_map.mp hid
        have hc2 : id ∈ vm.compilerFunctions := by
          rw [← Option.some_inj.mp hcid]
          exact hc
        refine markObject_mono ?_
        rw [hEdef]
        exact foldl_markSome_marks hc2
    · -- initString
      have hinit : vm.initString = some id :=
        (List.mem_singleton.mp hid).symm
      rw [hinit]
      exact markObject_marks vmE id

theorem foldl_markOpt_spec (vm : VmState) (l : List (Option Nat)) :
    (∀ x, x ∈ vm.marked → x ∈ (l.foldl markObject vm).marked) ∧
    (∀ x, x ∈ vm.grayStack → x ∈ (l.foldl markObject vm).grayStack) ∧
    (l.foldl markObject vm).heapData = vm.heapData ∧
    (l.foldl markObject vm).objects = vm.objects ∧
    (l.foldl markObject vm).compilerFunctions = vm.compilerFunctions ∧
    (GrayInv vm → GrayInv (l.foldl markObject vm)) :=
  foldl_mark_spec markObject (fun _ _ _ hx => markObject_mono hx)
    (fun _ _ _ hx => markObject_gray_mono hx)
    (fun vm2 o => markObject_heap vm2 o)
    (fun _ _ h => markObject_grayinv h) l vm

theorem foldl_markOpt_marks {vm : VmState} {l : List (Option Nat)} {id : Nat}
    (h : some id ∈ l) :
    id ∈ (l.foldl markObject vm).marked :=
  foldl_mark_elem markObject (fun o => o) (fun _ _ _ hx => markObject_mono hx)
    (fun vm2 o id2 h2 => by
      have h3 : o = some id2 := h2
      rw [h3]
      exact markObject_marks vm2 id2)
    l vm (some id) id h rfl

theorem blackenObject_spec (vm : VmState) (id : Nat) :
    (∀ x, x ∈ vm.marked → x ∈ (blackenObject vm id).marked) ∧
    (∀ x, x ∈ vm.grayStack → x ∈ (blackenObject vm id).grayStack) ∧
    (blackenObject vm id).heapData = vm.heapData ∧
    (blackenObject vm id).objects = vm.objects ∧
    (GrayInv vm → GrayInv (blackenObject vm id)) ∧
    (∀ p id2, heapObj vm.heapData id = some p → some id2 ∈ objRefs p →
      id2 ∈ (blackenObject vm id).marked) := by
  unfold blackenObject
  cases hheap : heapObj vm.heapData id with
  | none =>
    exact ⟨fun x h => h, fun x h => h, rfl, rfl, fun h => h,
      fun p id2 hp => nomatch hp⟩
  | some payload =>
    cases payload with
    | OBJ_BOUND_METHOD r m =>
      refine ⟨fun x h => markObject_mono (markValue_mono h),
        fun x h => markObject_gray_mono (markValue_gray_mono h),
        (markObject_heap _ _).1.trans (markValue_heap _ _).1,
        (markObject_heap _ _).2.1.trans (markValue_heap _ _).2.1,
        fun h => markObject_grayinv (markValue_grayinv h),
        fun p id2 hp href => ?_⟩
      rw [← Option.some_inj.mp hp] at href
      have href2 : some id2 ∈ [valueRef r, m] := href
      rcases List.mem_cons.mp href2 with h | h
      · exact markObject_mono (markValue_marks h.symm)
      · have h3 : m = some id2 := (List.mem_singleton.mp h).symm
        rw [h3]
        exact markObject_marks _ id2
    | OBJ_CLASS n methods =>
      obtain ⟨mT, gT, hT, oT, cT, iT⟩ :=
        markForGCTable_spec (markObject vm n) methods
      refine ⟨fun x h => mT x (markObject_mono h),
        fun x h => gT x (markObject_gray_mono h),
        hT.trans (markObject_heap _ _).1,
        oT.trans (markObject_heap _ _).2.1,
        fun h => iT (markObject_grayinv h),
        fun p id2 hp href => ?_⟩
      rw [← Option.some_inj.mp hp] at href
      have href2 : some id2 ∈ n :: tableRefs methods := href
      rcases List.mem_cons.mp href2 with h | h
      · refine mT id2 ?_
        rw [← h]
        exact markObject_marks vm id2
      · exact markForGCTable_marks h
    | OBJ_CLOSURE f ups =>
      obtain ⟨mU, gU, hU, oU, cU, iU⟩ :=
        foldl_markOpt_spec (markObject vm f) ups
      refine ⟨fun x h => mU x (markObject_mono h),
        fun x h => gU x (markObject_gray_mono h),
        hU.trans (markObject_heap _ _).1,
        oU.trans (markObject_heap _ _).2.1,
        fun h => iU (markObject_grayinv h),
        fun p id2 hp href => ?_⟩
      rw [← Option.some_inj.mp hp] at href
      have href2 : some id2 ∈ f :: ups := href
      rcases List.mem_cons.mp href2 with h | h
      · refine mU id2 ?_
        rw [← h]
        exact markObject_marks vm id2
      · exact foldl_markOpt_marks h
    | OBJ_FUNCTION ar n consts =>
      obtain ⟨mF, gF, hF, oF, cF, iF⟩ :=
        foldl_markValue_spec (markObject vm n) consts
      refine ⟨fun x h => mF x (markObject_mono h),
        fun x h => gF x (markObject_gray_mono h),
        hF.trans (markObject_heap _ _).1,
        oF.trans (markObject_heap _ _).2.1,
        fun h => iF (markObject_grayinv h),
        fun p id2 hp href => ?_⟩
      rw [← Option.some_inj.mp hp] at href
      have href2 : some id2 ∈ n :: consts.map valueRef := href
      rcases List.mem_cons.mp href2 with h | h
      · refine mF id2 ?_
        rw [← h]
        exact markObject_marks vm id2
      · obtain ⟨v, hv, hvid⟩ := List.mem_map.mp h
        exact foldl_markValue_marks hv hvid
    | OBJ_INSTANCE k fields =>
      obtain ⟨mT, gT, hT, oT, cT, iT⟩ :=
        markForGCTable_spec (markObject vm k) fields
      refine ⟨fun x h => mT x (markObject_mono h),
        fun x h => gT x (markObject_gray_mono h),
        hT.trans (markObject_heap _ _).1,
        oT.trans (markObject_heap _ _).2.1,
        fun h => iT (markObject_grayinv h),
        fun p id2 hp href => ?_⟩
      rw [← Option.some_inj.mp hp] at href
      have href2 : some id2 ∈ k :: tableRefs fields := href
      rcases List.mem_cons.mp href2 with h | h
      · refine mT id2 ?_
        rw [← h]
        exact markObject_marks vm id2
      · exact markForGCTable_marks h
    | OBJ_NATIVE fn =>
      refine ⟨fun x h => h, fun x h => h, rfl, rfl, fun h => h,
        fun p id2 hp href => ?_⟩
      rw [← Option.some_inj.mp hp] at href
      exact absurd href (List.not_mem_nil _)
    | OBJ_STRING str =>
      refine ⟨fun x h => h, fun x h => h, rfl, rfl, fun h => h,
        fun p id2 hp href => ?_⟩
      rw [← Option.some_inj.mp hp] at href
      exact absurd href (List.not_mem_nil _)
    | OBJ_UPVALUE closed =>
      refine ⟨fun x h => markValue_mono h,
        fun x h => markValue_gray_mono h,
        (markValue_heap _ _).1, (markValue_heap _ _).2.1,
        fun h => markValue_grayinv h,
        fun p id2 hp href => ?_⟩
      rw [← Option.some_inj.mp hp] at href
      have href2 : some id2 ∈ [valueRef closed] := href
      exact markValue_marks (List.mem_singleton.mp href2).symm

theorem markObject_new {vm : VmState} {o : Option Nat} {x : Nat}
    (h : x ∈ (markObject vm o).marked) :
    x ∈ vm.marked ∨ x ∈ (markObject vm o).grayStack := by
  unfold markObject at h ⊢
  cases o with
  | none => exact Or.inl h
  | some id =>
    dsimp only at h ⊢
    by_cases hc : vm.marked.contains id = true
    · rw [if_pos hc] at h ⊢
      exact Or.inl h
    · rw [if_neg hc] at h ⊢
      rcases List.mem_cons.mp h with h | h
      · exact Or.inr (by rw [h]; exact List.mem_cons_self _ _)
      · exact Or.inl h

theorem markValue_new {vm : VmState} {v : Value} {x : Nat}
    (h : x ∈ (markValue vm v).marked) :
    x ∈ vm.marked ∨ x ∈ (markValue vm v).grayStack := by
  rw [markValue_eq] at h ⊢
  exact markObject_new h

theorem foldl_gray_mono {α : Type} (f : VmState → α → VmState)
    (hgray : ∀ vm a x, x ∈ vm.grayStack → x ∈ (f vm a).grayStack) :
    ∀ (l : List α) (vm : VmState) (x : Nat),
      x ∈ vm.grayStack → x ∈ (l.foldl f vm).grayStack := by
  intro l
  induction l with
  | nil =>
    intro vm x h
    exact h
  | cons a rest ih =>
    intro vm x h
    simp only [List.foldl_cons]
    exact ih (f vm a) x (hgray vm a x h)

theorem foldl_mark_new {α : Type} (f : VmState → α → VmState)
    (hnew : ∀ vm a x, x ∈ (f vm a).marked →
      x ∈ vm.marked ∨ x ∈ (f vm a).grayStack)
    (hgray : ∀ vm a x, x ∈ vm.grayStack → x ∈ (f vm a).grayStack) :
    ∀ (l : List α) (vm : VmState) (x : Nat),
      x ∈ (l.foldl f vm).marked →
      x ∈ vm.marked ∨ x ∈ (l.foldl f vm).grayStack := by
  intro l
  induction l with
  | nil =>
    intro vm x h
    exact Or.inl h
  | cons a rest ih =>
    intro vm x h
    simp only [List.foldl_cons] at h ⊢
    rcases ih (f vm a) x h with h2 | h2
    · rcases hnew vm a x h2 with h3 | h3
      · exact Or.inl h3
      · exact Or.inr (foldl_gray_mono f hgray rest (f vm a) x h3)
    · exact Or.inr h2

theorem foldl_markValue_new {vm : VmState} {vs : List Value} {x : Nat}
    (h : x ∈ (vs.foldl markValue vm).marked) :
    x ∈ vm.marked ∨ x ∈ (vs.foldl markValue vm).grayStack :=
  foldl_mark_new markValue (fun _ _ _ h2 => markValue_new h2)
    (fun _ _ _ h2 => markValue_gray_mono h2) vs vm x h

theorem foldl_markOpt_new {vm : VmState} {l : List (Option Nat)} {x : Nat}
    (h : x ∈ (l.foldl markObject vm).marked) :
    x ∈ vm.marked ∨ x ∈ (l.foldl markObject vm).grayStack :=
  foldl_mark_new markObject (fun _ _ _ h2 => markObject_new h2)
    (fun _ _ _ h2 => markObject_gray_mono h2) l vm x h

theorem markForGCTable_new {vm : VmState} {t : Table} {x : Nat}
    (h : x ∈ (markForGCTable vm t).marked) :
    x ∈ vm.marked ∨ x ∈ (markForGCTable vm t).grayStack := by
  unfold markForGCTable at h ⊢
  refine foldl_mark_new _ ?_ ?_ t.entries vm x h
  · intro vm2 e x2 h2
    rcases markValue_new h2 with h3 | h3
    · rcases markObject_new h3 with h4 | h4
      · exact Or.inl h4
      · exact Or.inr (markValue_gray_mono h4)
    · exact Or.inr h3
  · intro vm2 e x2 h2
    exact markValue_gray_mono (markObject_gray_mono h2)

theorem blackenObject_new {vm : VmState} {id : Nat} {x : Nat}
    (h : x ∈ (blackenObject vm id).marked) :
    x ∈ vm.marked ∨ x ∈ (blackenObject vm id).grayStack := by
  unfold blackenObject at h ⊢
  cases hheap : heapObj vm.heapData id with
  | none =>
    rw [hheap] at h
    exact Or.inl h
  | some payload =>
    rw [hheap] at h
    cases payload with
    | OBJ_BOUND_METHOD r m =>
      rcases markObject_new h with h2 | h2
      · rcases markValue_new h2 with h3 | h3
        · exact Or.inl h3
        · exact Or.inr (markObject_gray_mono h3)
      · exact Or.inr h2
    | OBJ_CLASS n methods =>
      rcases markForGCTable_new h with h2 | h2
      · rcases markObject_new h2 with h3 | h3
        · exact Or.inl h3
        · exact Or.inr ((markForGCTable_spec _ _).2.1 x h3)
      · exact Or.inr h2
    | OBJ_CLOSURE f ups =>
      rcases foldl_markOpt_new h with h2 | h2
      · rcases markObject_new h2 with h3 | h3
        · exact Or.inl h3
        · exact Or.inr ((foldl_markOpt_spec _ _).2.1 x h3)
      · exact Or.inr h2
    | OBJ_FUNCTION ar n consts =>
      rcases foldl_markValue_new h with h2 | h2
      · rcases markObject_new h2 with h3 | h3
        · exact Or.inl h3
        · exact Or.inr ((foldl_markValue_spec _ _).2.1 x h3)
      · exact Or.inr h2
    | OBJ_INSTANCE k fields =>
      rcases markForGCTable_new h with h2 | h2
      · rcases markObject_new h2 with h3 | h3
        · exact Or.inl h3
        · exact Or.inr ((markForGCTable_spec _ _).2.1 x h3)
      · exact Or.inr h2
    | OBJ_NATIVE fn => exact Or.inl h
    | OBJ_STRING str => exact Or.inl h
    | OBJ_UPVALUE closed =>
      rcases markValue_new h with h2 | h2
      · exact Or.inl h2
      · exact Or.inr h2

theorem traceReferences_spec :
    ∀ (fuel : Nat) (vm : VmState), GrayInv vm →
      (∀ x, x ∈ vm.marked → x ∈ (traceReferences vm fuel).marked) ∧
      (traceReferences vm fuel).heapData = vm.heapData ∧
      (traceReferences vm fuel).objects = vm.objects ∧
      GrayInv (traceReferences vm fuel) := by
  intro fuel
  induction fuel with
  | zero =>
    intro vm hinv
    exact ⟨fun x h => h, rfl, rfl, hinv⟩
  | succ fuel ih =>
    intro vm hinv
    cases hg : vm.grayStack with
    | nil =>
      have hstep : traceReferences vm (fuel + 1) = vm := by
        simp only [traceReferences, hg]
      rw [hstep]
      exact ⟨fun x h => h, rfl, rfl, hinv⟩
    | cons id rest =>
      have hstep : traceReferences vm (fuel + 1)
          = traceReferences (blackenObject { vm with grayStack := rest } id)
              fuel := by
        simp only [traceReferences, hg]
      rw [hstep]
      set vmP : VmState := { vm with grayStack := rest } with hvmP
      obtain ⟨bm, bg, bh, bo, binv, brefs⟩ := blackenObject_spec vmP id
      have hinv1 : GrayInv (blackenObject vmP id) := by
        intro x hx
        rcases blackenObject_new hx with hxm | hxg
        · have hxvm : x ∈ vm.marked := hxm
          by_cases hxid : x = id
          · subst hxid
            refine Or.inr ?_
            intro p id2 hp href
            refine brefs p id2 ?_ href
            rw [bh] at hp
            exact hp
          · rcases hinv x hxvm with hxgray | hxrefs
            · rw [hg] at hxgray
              rcases List.mem_cons.mp hxgray with h | h
              · exact absurd h hxid
              · exact Or.inl (bg x h)
            · refine Or.inr ?_
              intro p id2 hp href
              rw [bh] at hp
              exact bm id2 (hxrefs p id2 hp href)
        · exact Or.inl hxg
      obtain ⟨tm, th, tob, tinv⟩ := ih (blackenObject vmP id) hinv1
      refine ⟨?_, ?_, ?_, tinv⟩
      · intro x h
        exact tm x (bm x h)
      · rw [th, bh]
      · rw [tob, bo]

theorem marked_closed {vm : VmState} (hinv : GrayInv vm)
    (hgray : vm.grayStack = []) :
    ∀ id, id ∈ vm.marked → RefsMarked vm.heapData vm.marked id := by
  intro id h
  rcases hinv id h with hg | hr
  · rw [hgray] at hg
    exact absurd hg (List.not_mem_nil id)
  · exact hr

theorem reachable_marked {vm : VmState} {fuel : Nat}
    (hmarked : vm.marked = [])
    (hterm : (traceReferences (markRoots vm) fuel).grayStack = []) :
    ∀ id, ReachableObj vm id →
      id ∈ (traceReferences (markRoots vm) fuel).marked := by
  obtain ⟨rm, rh, ro, rinv, rroots⟩ := markRoots_spec vm
  have hinv0 : GrayInv vm := by
    intro x hx
    rw [hmarked] at hx
    exact absurd hx (List.not_mem_nil x)
  obtain ⟨tm, th, tob, tinv⟩ :=
    traceReferences_spec fuel (markRoots vm) (rinv hinv0)
  have hclosed := marked_closed tinv hterm
  intro id hreach
  induction hreach with
  | root id2 hid => exact tm id2 (rroots id2 hid)
  | step id2 id3 p hreach2 hp href ih2 =>
    refine hclosed id2 ih2 p id3 ?_ href
    rw [th, rh]
    exact hp

/-- **C9** (confirmed; the VM fields missing from the checked-in headers
are modelled from the specification): collector soundness.  From a state
with all mark bits clear — the between-collections invariant `sweep`
itself re-establishes — and enough fuel for the trace worklist to empty
(the C `while (vm.grayCount > 0)` loop runs until exactly that point),
`collectGarbage` keeps every object reachable from the roots — the stack
values in `[0, stackTop)`, every active frame's closure, every open
upvalue, every key and value of the globals table, the compiler chain's
functions and the init string, transitively through per-kind tracing —
on the allocator's intrusive object list: a reachable listed object is
still listed (not freed) afterwards, and every surviving object has its
`isMarked` bit reset to false. -/
theorem collectGarbage_sound {vm : VmState} {fuel : Nat}
    (hmarked : vm.marked = [])
    (hterm : (traceReferences (markRoots vm) fuel).grayStack = []) :
    (∀ id, ReachableObj vm id → id ∈ vm.objects →
      id ∈ (collectGarbage vm fuel).objects) ∧
    (∀ id, id ∈ (collectGarbage vm fuel).objects →
      id ∉ (collectGarbage vm fuel).marked) := by
  obtain ⟨rm, rh, ro, rinv, rroots⟩ := markRoots_spec vm
  have hinv0 : GrayInv vm := by
    intro x hx
    rw [hmarked] at hx
    exact absurd hx (List.not_mem_nil x)
  obtain ⟨tm, th, tob, tinv⟩ :=
    traceReferences_spec fuel (markRoots vm) (rinv hinv0)
  set vmT := traceReferences (markRoots vm) fuel with hvmT
  have hro : vmT.objects = vm.objects := by rw [tob, ro]
  have hobjs : (collectGarbage vm fuel).objects
      = vmT.objects.filter (fun i => vmT.marked.contains i) := rfl
  have hmks : (collectGarbage vm fuel).marked
      = vmT.marked.filter (fun i => !vmT.objects.contains i) := rfl
  constructor
  · intro id hreach hobj
    have hmark : id ∈ vmT.marked := reachable_marked hmarked hterm id hreach
    rw [hobjs, List.mem_filter]
    exact ⟨by rw [hro]; exact hobj, List.elem_iff.mpr hmark⟩
  · intro id hobj hmem
    have hobj2 : id ∈ vmT.objects := by
      rw [hobjs, List.mem_filter] at hobj
      exact hobj.1
    rw [hmks, List.mem_filter] at hmem
    rcases hmem with ⟨-, hneg⟩
    have hcon : vmT.objects.contains id = true := List.elem_iff.mpr hobj2
    rw [hcon] at hneg
    exact absurd hneg (by decide)

/-- Closed witness for the C9 theorem: the concrete two-object VM whose
stack references the upvalue object `0`, with object `1` unreachable;
fuel 4 empties the worklist. -/
theorem collectGarbage_sound_witness :
    c9Vm.marked = [] ∧
    (traceReferences (markRoots c9Vm) 4).grayStack = [] ∧
    ((∀ id, ReachableObj c9Vm id → id ∈ c9Vm.objects →
        id ∈ (collectGarbage c9Vm 4).objects) ∧
     (∀ id, id ∈ (collectGarbage c9Vm 4).objects →
        id ∉ (collectGarbage c9Vm 4).marked)) :=
  ⟨rfl, rfl, collectGarbage_sound rfl rfl⟩

end Clox

















